import Mathlib

/-!
Shallow embedding of the redpanda schema-registry in-memory `store`
(`pandaproxy::schema_registry::store`), together with proofs of its
documented behaviour.

The C++ store keeps two maps:
  * `_schemas   : absl::btree_map<schema_id, schema_entry>` — ordered by id;
    modelled as a `List (SchemaId × SchemaEntry)` kept strictly ascending
    in the key (the well-formedness invariant proved below);
  * `_subjects  : absl::node_hash_map<subject, subject_entry>` — unordered;
    modelled as an association list with first-occurrence lookup;
plus a global `_compatibility` level defaulting to `none`.

Fallible operations return `Except ErrorCode α`; mutating operations return
the result paired with the new store.
-/

set_option autoImplicit false

namespace SchemaRegistry

abbrev Subject := String
abbrev SchemaDefinition := String
abbrev SchemaId := Nat
abbrev SchemaVersion := Nat

/-- `error_code` values used by the store (error.h). -/
inductive ErrorCode where
  | schema_id_not_found
  | subject_not_found
  | subject_version_not_found
  | subject_not_deleted
  | subject_soft_deleted
  | subject_version_not_deleted
  | subject_version_soft_deleted
  deriving DecidableEq

/-- `schema_type` (types.h): the serialization format of a schema. -/
inductive SchemaType where
  | avro
  | json
  | protobuf
  deriving DecidableEq

/-- `compatibility_level` (types.h). The store default-initialises the global
level to `none`. -/
inductive CompatibilityLevel where
  | none
  | backward
  | backward_transitive
  | forward
  | forward_transitive
  | full
  | full_transitive
  deriving DecidableEq

/-- `store::schema_entry`: the content stored for one schema id. -/
structure SchemaEntry where
  type : SchemaType
  definition : SchemaDefinition
  deriving DecidableEq

/-- `subject_version_id` (types.h): one entry of a subject's version list. -/
structure SubjectVersionId where
  version : SchemaVersion
  id : SchemaId
  deleted : Bool
  deriving DecidableEq

/-- `store::subject_entry`: per-subject state. -/
structure SubjectEntry where
  compatibility : Option CompatibilityLevel
  versions : List SubjectVersionId
  deleted : Bool
  deriving DecidableEq

/-- Default-constructed `subject_entry`, as produced by `_subjects[sub]` for
an absent key. -/
def SubjectEntry.default : SubjectEntry := ⟨Option.none, [], false⟩

/-- The whole `store` state. -/
structure Store where
  schemas : List (SchemaId × SchemaEntry)
  subjects : List (Subject × SubjectEntry)
  compatibility : CompatibilityLevel
  deriving DecidableEq

/-- A freshly constructed store. -/
def Store.empty : Store := ⟨[], [], CompatibilityLevel.none⟩

instance exceptDecEq {ε α : Type} [DecidableEq ε] [DecidableEq α] :
    DecidableEq (Except ε α)
  | Except.error e, Except.error f =>
      if h : e = f then isTrue (by rw [h])
      else isFalse (by intro hh; cases hh; exact h rfl)
  | Except.error _, Except.ok _ => isFalse (by intro hh; cases hh)
  | Except.ok _, Except.error _ => isFalse (by intro hh; cases hh)
  | Except.ok a, Except.ok b =>
      if h : a = b then isTrue (by rw [h])
      else isFalse (by intro hh; cases hh; exact h rfl)

/-! ### Association-list primitives for `_subjects` (hash map semantics) -/

/-- `_subjects.find(k)`: first-occurrence lookup. -/
def subjFind (k : Subject) : List (Subject × SubjectEntry) → Option SubjectEntry
  | [] => Option.none
  | p :: rest => if k = p.1 then some p.2 else subjFind k rest

/-- Write-through of `_subjects[k] = e`: replace the first binding of `k`,
or append a fresh binding. -/
def subjStore (k : Subject) (e : SubjectEntry) :
    List (Subject × SubjectEntry) → List (Subject × SubjectEntry)
  | [] => [(k, e)]
  | p :: rest => if k = p.1 then (k, e) :: rest else p :: subjStore k e rest

/-- `_subjects.erase(it)` for the binding of `k`. -/
def subjErase (k : Subject) :
    List (Subject × SubjectEntry) → List (Subject × SubjectEntry)
  | [] => []
  | p :: rest => if k = p.1 then rest else p :: subjErase k rest

/-! ### Ordered-map primitives for `_schemas` (btree_map semantics) -/

/-- `_schemas.find(id)` on the key-ordered list. -/
def schemasFind (id : SchemaId) : List (SchemaId × SchemaEntry) → Option SchemaEntry
  | [] => Option.none
  | p :: rest => if id = p.1 then some p.2 else schemasFind id rest

/-- The dedup scan of `store::insert_schema`: first entry (in ascending id
order) whose `(type, definition)` matches, returning its id. -/
def findSchema (ty : SchemaType) (d : SchemaDefinition) :
    List (SchemaId × SchemaEntry) → Option SchemaId
  | [] => Option.none
  | p :: rest =>
      if ty = p.2.type ∧ d = p.2.definition then some p.1 else findSchema ty d rest

/-- `_schemas.empty() ? 1 : std::prev(_schemas.end())->first + 1`: one more
than the last (on a sorted map: greatest) key, or 1 for an empty map. -/
def nextSchemaId : List (SchemaId × SchemaEntry) → SchemaId
  | [] => 1
  | [p] => p.1 + 1
  | _ :: rest => nextSchemaId rest

/-- `_schemas.try_emplace(id, e)`: ordered insert that does not overwrite;
returns whether an insertion happened. -/
def schemasEmplace (id : SchemaId) (e : SchemaEntry) :
    List (SchemaId × SchemaEntry) → Bool × List (SchemaId × SchemaEntry)
  | [] => (true, [(id, e)])
  | p :: rest =>
      if id < p.1 then (true, (id, e) :: p :: rest)
      else if id = p.1 then (false, p :: rest)
      else
        let r := schemasEmplace id e rest
        (r.1, p :: r.2)

/-- `_schemas.insert_or_assign(id, e)`: ordered insert or overwrite;
returns whether a fresh insertion happened. -/
def schemasAssign (id : SchemaId) (e : SchemaEntry) :
    List (SchemaId × SchemaEntry) → Bool × List (SchemaId × SchemaEntry)
  | [] => (true, [(id, e)])
  | p :: rest =>
      if id < p.1 then (true, (id, e) :: p :: rest)
      else if id = p.1 then (false, (id, e) :: rest)
      else
        let r := schemasAssign id e rest
        (r.1, p :: r.2)

/-! ### Version-list primitives (sorted `std::vector<subject_version_id>`) -/

/-- `std::lower_bound` by version followed by the `v_it->version == version`
check: the entry at exactly `ver`, on a version-sorted list. -/
def versionsFind (ver : SchemaVersion) : List SubjectVersionId → Option SubjectVersionId
  | [] => Option.none
  | v :: rest =>
      if v.version < ver then versionsFind ver rest
      else if v.version = ver then some v
      else Option.none

/-- `versions.erase(v_it)` where `v_it` is the lower-bound iterator for `ver`. -/
def versionsErase (ver : SchemaVersion) : List SubjectVersionId → List SubjectVersionId
  | [] => []
  | v :: rest =>
      if v.version < ver then v :: versionsErase ver rest
      else if v.version = ver then rest
      else v :: rest

/-- `std::exchange(v_it->deleted, is_deleted::yes)` at the lower-bound
iterator for `ver`: mark that entry soft-deleted. -/
def versionsSoftDelete (ver : SchemaVersion) : List SubjectVersionId → List SubjectVersionId
  | [] => []
  | v :: rest =>
      if v.version < ver then v :: versionsSoftDelete ver rest
      else if v.version = ver then { v with deleted := true } :: rest
      else v :: rest

/-- `std::exchange(v_it->deleted, is_deleted::no)` at the first entry whose
schema id matches (the `find_if` of `insert_subject`). -/
def undeleteFirst (id : SchemaId) : List SubjectVersionId → List SubjectVersionId
  | [] => []
  | v :: rest =>
      if v.id = id then { v with deleted := false } :: rest
      else v :: undeleteFirst id rest

/-- `versions.empty() ? 1 : versions.back().version + 1`: the version number
appended by `insert_subject` for a schema id not yet in the subject. -/
def nextVersion : List SubjectVersionId → SchemaVersion
  | [] => 1
  | [v] => v.version + 1
  | _ :: rest => nextVersion rest

/-- `std::lower_bound` insert-or-overwrite of `upsert_subject`. Returns
whether a fresh insertion happened (`true`) vs. overwrite (`false`). -/
def versionsUpsert (w : SubjectVersionId) :
    List SubjectVersionId → Bool × List SubjectVersionId
  | [] => (true, [w])
  | v :: rest =>
      if v.version < w.version then
        let r := versionsUpsert w rest
        (r.1, v :: r.2)
      else if v.version = w.version then (false, w :: rest)
      else (true, w :: v :: rest)

/-! ### The store operations -/

/-- Result of `store::insert_schema`. -/
structure InsertSchemaResult where
  id : SchemaId
  inserted : Bool
  deriving DecidableEq

/-- `store::insert_schema`: dedup by exact `(type, definition)` match,
otherwise allocate `max_id + 1` (or 1) and emplace. -/
def Store.insert_schema (s : Store) (d : SchemaDefinition) (ty : SchemaType) :
    InsertSchemaResult × Store :=
  match findSchema ty d s.schemas with
  | some i => (⟨i, false⟩, s)
  | Option.none =>
      let id := nextSchemaId s.schemas
      let r := schemasEmplace id ⟨ty, d⟩ s.schemas
      (⟨id, r.1⟩, { s with schemas := r.2 })

/-- `store::upsert_schema`: `insert_or_assign` at an explicit id. -/
def Store.upsert_schema (s : Store) (id : SchemaId) (d : SchemaDefinition)
    (ty : SchemaType) : Bool × Store :=
  let r := schemasAssign id ⟨ty, d⟩ s.schemas
  (r.1, { s with schemas := r.2 })

/-- Core of `store::insert_subject` acting on one `subject_entry` (after
`_subjects[sub]` has default-constructed it if absent). Mirrors: set
`deleted = no`; `find_if` a version with this schema id; if found, exchange
its deleted flag to `no` and report the old flag; else append
`last_version + 1` (or 1). -/
def insertSubjectEntry (id : SchemaId) (e : SubjectEntry) :
    SchemaVersion × Bool × SubjectEntry :=
  match e.versions.find? (fun v => v.id == id) with
  | some v =>
      (v.version, v.deleted,
        { e with deleted := false, versions := undeleteFirst id e.versions })
  | Option.none =>
      let ver := nextVersion e.versions
      (ver, true,
        { e with deleted := false, versions := e.versions ++ [⟨ver, id, false⟩] })

/-- `store::insert_subject`. -/
def Store.insert_subject (s : Store) (sub : Subject) (id : SchemaId) :
    (SchemaVersion × Bool) × Store :=
  let e := (subjFind sub s.subjects).getD SubjectEntry.default
  let r := insertSubjectEntry id e
  ((r.1, r.2.1), { s with subjects := subjStore sub r.2.2 s.subjects })

/-- Result of `store::insert`. -/
structure InsertResult where
  version : SchemaVersion
  id : SchemaId
  inserted : Bool
  deriving DecidableEq

/-- `store::insert`: register the schema (dedup), then register it under the
subject. -/
def Store.insert (s : Store) (sub : Subject) (d : SchemaDefinition)
    (ty : SchemaType) : InsertResult × Store :=
  let r1 := s.insert_schema d ty
  let r2 := r1.2.insert_subject sub r1.1.id
  (⟨r2.1.1, r1.1.id, r2.1.2⟩, r2.2)

/-- `store::upsert_subject`: force-write a subject/version entry; also
undeletes the subject. -/
def Store.upsert_subject (s : Store) (sub : Subject) (version : SchemaVersion)
    (id : SchemaId) (deleted : Bool) : Bool × Store :=
  let e := (subjFind sub s.subjects).getD SubjectEntry.default
  let r := versionsUpsert ⟨version, id, deleted⟩ e.versions
  (r.1, { s with subjects := subjStore sub { e with deleted := false, versions := r.2 } s.subjects })

/-- `store::upsert`. -/
def Store.upsert (s : Store) (sub : Subject) (d : SchemaDefinition)
    (ty : SchemaType) (id : SchemaId) (version : SchemaVersion)
    (deleted : Bool) : Bool × Store :=
  ((s.upsert_schema id d ty).2).upsert_subject sub version id deleted

/-- Result of `store::get_schema`. -/
structure Schema where
  id : SchemaId
  type : SchemaType
  definition : SchemaDefinition
  deriving DecidableEq

/-- `store::get_schema`. -/
def Store.get_schema (s : Store) (id : SchemaId) : Except ErrorCode Schema :=
  match schemasFind id s.schemas with
  | Option.none => Except.error ErrorCode.schema_id_not_found
  | some e => Except.ok ⟨id, e.type, e.definition⟩

/-- Result of `store::get_subject_schema`. -/
structure SubjectSchema where
  sub : Subject
  version : SchemaVersion
  id : SchemaId
  type : SchemaType
  definition : SchemaDefinition
  deleted : Bool
  deriving DecidableEq

/-- `store::get_subject_schema`. -/
def Store.get_subject_schema (s : Store) (sub : Subject)
    (version : SchemaVersion) (inc_del : Bool) : Except ErrorCode SubjectSchema :=
  match subjFind sub s.subjects with
  | Option.none => Except.error ErrorCode.subject_not_found
  | some e =>
      if e.deleted && !inc_del then Except.error ErrorCode.subject_not_found
      else
        match versionsFind version e.versions with
        | Option.none => Except.error ErrorCode.subject_version_not_found
        | some v =>
            match s.get_schema v.id with
            | Except.error ec => Except.error ec
            | Except.ok sc =>
                Except.ok ⟨sub, v.version, v.id, sc.type, sc.definition, v.deleted⟩

/-- `store::get_subjects`. -/
def Store.get_subjects (s : Store) (inc_del : Bool) : List Subject :=
  (s.subjects.filter (fun p => inc_del || !p.2.deleted)).map Prod.fst

/-- `store::get_versions`. -/
def Store.get_versions (s : Store) (sub : Subject) (inc_del : Bool) :
    Except ErrorCode (List SchemaVersion) :=
  match subjFind sub s.subjects with
  | Option.none => Except.error ErrorCode.subject_not_found
  | some e =>
      if e.deleted && !inc_del then Except.error ErrorCode.subject_not_found
      else
        Except.ok
          ((e.versions.filter (fun v => inc_del || !(v.deleted || e.deleted))).map
            SubjectVersionId.version)

/-- `store::delete_subject`. -/
def Store.delete_subject (s : Store) (sub : Subject) (permanent : Bool) :
    Except ErrorCode (List SchemaVersion) × Store :=
  match subjFind sub s.subjects with
  | Option.none => (Except.error ErrorCode.subject_not_found, s)
  | some e =>
      if permanent && !e.deleted then (Except.error ErrorCode.subject_not_deleted, s)
      else if !permanent && e.deleted then
        (Except.error ErrorCode.subject_soft_deleted, s)
      else
        let res := e.versions.map SubjectVersionId.version
        if permanent then
          (Except.ok res, { s with subjects := subjErase sub s.subjects })
        else
          let e' := { e with deleted := true }
          (Except.ok res, { s with subjects := subjStore sub e' s.subjects })

/-- `store::delete_subject_version`. -/
def Store.delete_subject_version (s : Store) (sub : Subject)
    (version : SchemaVersion) (permanent : Bool) (inc_del : Bool) :
    Except ErrorCode Bool × Store :=
  match subjFind sub s.subjects with
  | Option.none => (Except.error ErrorCode.subject_not_found, s)
  | some e =>
      if e.deleted && !inc_del then (Except.error ErrorCode.subject_not_found, s)
      else
        match versionsFind version e.versions with
        | Option.none => (Except.error ErrorCode.subject_version_not_found, s)
        | some v =>
            if !v.deleted && permanent && !inc_del then
              (Except.error ErrorCode.subject_version_not_deleted, s)
            else if v.deleted && !permanent && !inc_del then
              (Except.error ErrorCode.subject_version_soft_deleted, s)
            else if permanent then
              let e' := { e with versions := versionsErase version e.versions }
              (Except.ok true, { s with subjects := subjStore sub e' s.subjects })
            else
              let e' := { e with versions := versionsSoftDelete version e.versions }
              (Except.ok (!v.deleted), { s with subjects := subjStore sub e' s.subjects })

/-- `store::get_compatibility()` (global). -/
def Store.get_compatibility_global (s : Store) : Except ErrorCode CompatibilityLevel :=
  Except.ok s.compatibility

/-- `store::get_compatibility(sub)`. -/
def Store.get_compatibility (s : Store) (sub : Subject) :
    Except ErrorCode CompatibilityLevel :=
  match subjFind sub s.subjects with
  | Option.none => Except.error ErrorCode.subject_not_found
  | some e =>
      if e.deleted then Except.error ErrorCode.subject_not_found
      else Except.ok (e.compatibility.getD s.compatibility)

/-- `store::set_compatibility(level)` (global). -/
def Store.set_compatibility_global (s : Store) (c : CompatibilityLevel) :
    Except ErrorCode Bool × Store :=
  (Except.ok (decide (s.compatibility ≠ c)), { s with compatibility := c })

/-- `store::set_compatibility(sub, level)`. -/
def Store.set_compatibility (s : Store) (sub : Subject) (c : CompatibilityLevel) :
    Except ErrorCode Bool × Store :=
  match subjFind sub s.subjects with
  | Option.none => (Except.error ErrorCode.subject_not_found, s)
  | some e =>
      if e.deleted then (Except.error ErrorCode.subject_not_found, s)
      else
        (Except.ok (decide (e.compatibility ≠ some c)),
          { s with subjects := subjStore sub { e with compatibility := some c } s.subjects })

/-- `store::clear_compatibility(sub)`. -/
def Store.clear_compatibility (s : Store) (sub : Subject) :
    Except ErrorCode Bool × Store :=
  match subjFind sub s.subjects with
  | Option.none => (Except.error ErrorCode.subject_not_found, s)
  | some e =>
      (Except.ok e.compatibility.isSome,
        { s with subjects := subjStore sub { e with compatibility := Option.none } s.subjects })

/-! ### Lemmas: subject map primitives -/

theorem subjFind_store_self (k : Subject) (e : SubjectEntry)
    (l : List (Subject × SubjectEntry)) :
    subjFind k (subjStore k e l) = some e := by
  induction l with
  | nil => simp [subjStore, subjFind]
  | cons p rest ih =>
      by_cases h : k = p.1
      · simp [subjStore, subjFind, h]
      · simp [subjStore, subjFind, h, ih]

theorem subjFind_store_ne (k k' : Subject) (e : SubjectEntry)
    (l : List (Subject × SubjectEntry)) (h : k' ≠ k) :
    subjFind k' (subjStore k e l) = subjFind k' l := by
  induction l with
  | nil => simp [subjStore, subjFind, h]
  | cons p rest ih =>
      by_cases hk : k = p.1
      · subst hk
        simp [subjStore, subjFind, h]
      · by_cases hk' : k' = p.1
        · simp [subjStore, subjFind, hk, hk']
        · simp [subjStore, subjFind, hk, hk', ih]

theorem subjStore_mem {p : Subject × SubjectEntry} (k : Subject) (e : SubjectEntry)
    {l : List (Subject × SubjectEntry)} (h : p ∈ subjStore k e l) :
    p = (k, e) ∨ p ∈ l := by
  induction l with
  | nil =>
      simp [subjStore] at h
      exact Or.inl h
  | cons q rest ih =>
      by_cases hk : k = q.1
      · simp only [subjStore, if_pos hk] at h
        rcases List.mem_cons.mp h with h | h
        · exact Or.inl h
        · exact Or.inr (List.mem_cons_of_mem _ h)
      · simp only [subjStore, if_neg hk] at h
        rcases List.mem_cons.mp h with h | h
        · exact Or.inr (by simp [h])
        · rcases ih h with h' | h'
          · exact Or.inl h'
          · exact Or.inr (List.mem_cons_of_mem _ h')

theorem subjStore_keys_mem {a k : Subject} (e : SubjectEntry)
    {l : List (Subject × SubjectEntry)}
    (h : a ∈ (subjStore k e l).map Prod.fst) :
    a = k ∨ a ∈ l.map Prod.fst := by
  rcases List.mem_map.mp h with ⟨p, hp, hpa⟩
  rcases subjStore_mem k e hp with h' | h'
  · left
    rw [← hpa, h']
  · right
    rw [← hpa]
    exact List.mem_map_of_mem _ h'

theorem subjStore_keys_nodup (k : Subject) (e : SubjectEntry)
    {l : List (Subject × SubjectEntry)} (h : (l.map Prod.fst).Nodup) :
    ((subjStore k e l).map Prod.fst).Nodup := by
  induction l with
  | nil => simp [subjStore]
  | cons p rest ih =>
      simp only [List.map_cons, List.nodup_cons] at h
      by_cases hk : k = p.1
      · simp only [subjStore, if_pos hk, List.map_cons, List.nodup_cons]
        exact ⟨hk ▸ h.1, h.2⟩
      · simp only [subjStore, if_neg hk, List.map_cons, List.nodup_cons]
        refine ⟨fun hmem => ?_, ih h.2⟩
        rcases subjStore_keys_mem e hmem with h' | h'
        · exact hk h'.symm
        · exact h.1 h'

theorem subjErase_sublist (k : Subject) (l : List (Subject × SubjectEntry)) :
    List.Sublist (subjErase k l) l := by
  induction l with
  | nil => simp [subjErase]
  | cons p rest ih =>
      by_cases hk : k = p.1
      · simp only [subjErase, if_pos hk]
        exact List.sublist_cons_self p rest
      · simp only [subjErase, if_neg hk]
        exact List.Sublist.cons₂ p ih

theorem subjFind_mem {k : Subject} {v : SubjectEntry}
    {l : List (Subject × SubjectEntry)} (h : subjFind k l = some v) :
    (k, v) ∈ l := by
  induction l with
  | nil => simp [subjFind] at h
  | cons p rest ih =>
      by_cases hk : k = p.1
      · simp only [subjFind, if_pos hk] at h
        have hv := Option.some.inj h
        rw [hk, ← hv, Prod.mk.eta]
        exact List.mem_cons_self p rest
      · simp only [subjFind, if_neg hk] at h
        exact List.mem_cons_of_mem _ (ih h)

theorem subjFind_eq_none {k : Subject} {l : List (Subject × SubjectEntry)}
    (h : ∀ p ∈ l, k ≠ p.1) : subjFind k l = Option.none := by
  induction l with
  | nil => simp [subjFind]
  | cons p rest ih =>
      simp only [subjFind, if_neg (h p (List.mem_cons_self p rest))]
      exact ih fun q hq => h q (List.mem_cons_of_mem _ hq)

theorem subjFind_erase (k : Subject) {l : List (Subject × SubjectEntry)}
    (h : (l.map Prod.fst).Nodup) : subjFind k (subjErase k l) = Option.none := by
  induction l with
  | nil => simp [subjErase, subjFind]
  | cons p rest ih =>
      simp only [List.map_cons, List.nodup_cons] at h
      by_cases hk : k = p.1
      · simp only [subjErase, if_pos hk]
        refine subjFind_eq_none fun q hq hkq => ?_
        exact h.1 (hk ▸ hkq ▸ List.mem_map_of_mem Prod.fst hq)
      · simp only [subjErase, if_neg hk, subjFind, if_neg hk]
        exact ih h.2

theorem subjStore_find_eq {k : Subject} {e : SubjectEntry}
    {l : List (Subject × SubjectEntry)} (h : subjFind k l = some e) :
    subjStore k e l = l := by
  induction l with
  | nil => simp [subjFind] at h
  | cons p rest ih =>
      by_cases hk : k = p.1
      · simp only [subjFind, if_pos hk] at h
        have hv := Option.some.inj h
        simp only [subjStore, if_pos hk]
        rw [hk, ← hv, Prod.mk.eta]
      · simp only [subjFind, if_neg hk] at h
        simp only [subjStore, if_neg hk, ih h]

/-! ### Lemmas: schema map primitives -/

/-- The `_schemas` btree invariant: entries strictly ascending in the key. -/
def SchemasSorted (l : List (SchemaId × SchemaEntry)) : Prop :=
  l.Pairwise (fun p q => p.1 < q.1)

instance (l : List (SchemaId × SchemaEntry)) : Decidable (SchemasSorted l) :=
  inferInstanceAs (Decidable (l.Pairwise _))

theorem nextSchemaId_gt {l : List (SchemaId × SchemaEntry)} (h : SchemasSorted l) :
    ∀ p ∈ l, p.1 < nextSchemaId l := by
  induction l with
  | nil => intro p hp; cases hp
  | cons x rest ih =>
      rw [SchemasSorted, List.pairwise_cons] at h
      intro p hp
      rcases List.mem_cons.mp hp with h' | h'
      · subst h'
        cases rest with
        | nil => simp [nextSchemaId]
        | cons y t =>
            have hy : p.1 < y.1 := h.1 y (List.mem_cons_self y t)
            have ht := ih h.2 y (List.mem_cons_self y t)
            simpa [nextSchemaId] using lt_trans hy ht
      · cases rest with
        | nil => cases h'
        | cons y t => simpa [nextSchemaId] using ih h.2 p h'

theorem schemasEmplace_gt {id : SchemaId} (e : SchemaEntry)
    {l : List (SchemaId × SchemaEntry)} (h : ∀ p ∈ l, p.1 < id) :
    schemasEmplace id e l = (true, l ++ [(id, e)]) := by
  induction l with
  | nil => simp [schemasEmplace]
  | cons p rest ih =>
      have hp := h p (List.mem_cons_self p rest)
      have h1 : ¬ id < p.1 := Nat.lt_asymm hp
      have h2 : ¬ id = p.1 := fun he => absurd he.symm (Nat.ne_of_lt hp)
      have ih' := ih fun q hq => h q (List.mem_cons_of_mem _ hq)
      simp [schemasEmplace, if_neg h1, if_neg h2, ih']

theorem schemasFind_eq_none {id : SchemaId} {l : List (SchemaId × SchemaEntry)}
    (h : ∀ p ∈ l, id ≠ p.1) : schemasFind id l = Option.none := by
  induction l with
  | nil => simp [schemasFind]
  | cons p rest ih =>
      simp only [schemasFind, if_neg (h p (List.mem_cons_self p rest))]
      exact ih fun q hq => h q (List.mem_cons_of_mem _ hq)

theorem schemasFind_append_self {id : SchemaId} (e : SchemaEntry)
    {l : List (SchemaId × SchemaEntry)} (h : ∀ p ∈ l, p.1 < id) :
    schemasFind id (l ++ [(id, e)]) = some e := by
  induction l with
  | nil => simp [schemasFind]
  | cons p rest ih =>
      have hp := h p (List.mem_cons_self p rest)
      have h2 : ¬ id = p.1 := fun he => absurd he.symm (Nat.ne_of_lt hp)
      simp only [List.cons_append, schemasFind, if_neg h2]
      exact ih fun q hq => h q (List.mem_cons_of_mem _ hq)

theorem schemasFind_of_mem {l : List (SchemaId × SchemaEntry)}
    (hs : SchemasSorted l) {i : SchemaId} {en : SchemaEntry} (h : (i, en) ∈ l) :
    schemasFind i l = some en := by
  induction l with
  | nil => cases h
  | cons p rest ih =>
      rw [SchemasSorted, List.pairwise_cons] at hs
      rcases List.mem_cons.mp h with h' | h'
      · rw [← h']
        simp [schemasFind]
      · have hlt : p.1 < i := hs.1 (i, en) h'
        have h2 : ¬ i = p.1 := fun he => absurd he.symm (Nat.ne_of_lt hlt)
        simp only [schemasFind, if_neg h2]
        exact ih hs.2 h'

theorem findSchema_some {ty : SchemaType} {d : SchemaDefinition}
    {l : List (SchemaId × SchemaEntry)} {i : SchemaId}
    (h : findSchema ty d l = some i) : (i, (⟨ty, d⟩ : SchemaEntry)) ∈ l := by
  induction l with
  | nil => simp [findSchema] at h
  | cons p rest ih =>
      by_cases hc : ty = p.2.type ∧ d = p.2.definition
      · simp only [findSchema, if_pos hc] at h
        have hi := Option.some.inj h
        rcases p with ⟨pi, pe⟩
        rcases hc with ⟨hc1, hc2⟩
        simp only at hi hc1 hc2
        have hpe : pe = (⟨ty, d⟩ : SchemaEntry) := by
          rcases pe with ⟨pt, pd⟩
          simp only at hc1 hc2
          rw [hc1, hc2]
        rw [← hi, ← hpe]
        exact List.mem_cons_self _ _
      · simp only [findSchema, if_neg hc] at h
        exact List.mem_cons_of_mem _ (ih h)

theorem findSchema_eq_none {ty : SchemaType} {d : SchemaDefinition}
    {l : List (SchemaId × SchemaEntry)} :
    findSchema ty d l = Option.none ↔
      ∀ p ∈ l, ¬(ty = p.2.type ∧ d = p.2.definition) := by
  induction l with
  | nil => simp [findSchema]
  | cons p rest ih =>
      by_cases hc : ty = p.2.type ∧ d = p.2.definition
      · simp [findSchema, if_pos hc, hc]
      · simp only [findSchema, if_neg hc, ih]
        constructor
        · intro hall q hq
          rcases List.mem_cons.mp hq with h' | h'
          · rw [h']
            exact hc
          · exact hall q h'
        · intro hall q hq
          exact hall q (List.mem_cons_of_mem _ hq)

theorem findSchema_append_self {ty : SchemaType} {d : SchemaDefinition}
    {l : List (SchemaId × SchemaEntry)} (i : SchemaId)
    (h : findSchema ty d l = Option.none) :
    findSchema ty d (l ++ [(i, ⟨ty, d⟩)]) = some i := by
  induction l with
  | nil => simp [findSchema]
  | cons p rest ih =>
      by_cases hc : ty = p.2.type ∧ d = p.2.definition
      · simp only [findSchema, if_pos hc] at h
        cases h
      · simp only [findSchema, if_neg hc] at h
        simp only [List.cons_append, findSchema, if_neg hc]
        exact ih h

theorem schemasSorted_append_last {l : List (SchemaId × SchemaEntry)}
    (hs : SchemasSorted l) {id : SchemaId} (e : SchemaEntry)
    (h : ∀ p ∈ l, p.1 < id) : SchemasSorted (l ++ [(id, e)]) := by
  rw [SchemasSorted, List.pairwise_append]
  refine ⟨hs, List.pairwise_singleton _ _, fun a ha b hb => ?_⟩
  have : b = (id, e) := by simpa using hb
  rw [this]
  exact h a ha

theorem schemasAssign_mem {id : SchemaId} {e : SchemaEntry}
    {l : List (SchemaId × SchemaEntry)} {q : SchemaId × SchemaEntry}
    (h : q ∈ (schemasAssign id e l).2) : q = (id, e) ∨ q ∈ l := by
  induction l with
  | nil =>
      simp [schemasAssign] at h
      exact Or.inl h
  | cons p rest ih =>
      by_cases h1 : id < p.1
      · simp only [schemasAssign, if_pos h1] at h
        rcases List.mem_cons.mp h with h' | h'
        · exact Or.inl h'
        · exact Or.inr h'
      · by_cases h2 : id = p.1
        · simp only [schemasAssign, if_neg h1, if_pos h2] at h
          rcases List.mem_cons.mp h with h' | h'
          · exact Or.inl h'
          · exact Or.inr (List.mem_cons_of_mem _ h')
        · simp only [schemasAssign, if_neg h1, if_neg h2] at h
          rcases List.mem_cons.mp h with h' | h'
          · exact Or.inr (by simp [h'])
          · rcases ih h' with h'' | h''
            · exact Or.inl h''
            · exact Or.inr (List.mem_cons_of_mem _ h'')

theorem schemasAssign_sorted {id : SchemaId} {e : SchemaEntry}
    {l : List (SchemaId × SchemaEntry)} (hs : SchemasSorted l) :
    SchemasSorted (schemasAssign id e l).2 := by
  induction l with
  | nil => simp [schemasAssign, SchemasSorted]
  | cons p rest ih =>
      rw [SchemasSorted, List.pairwise_cons] at hs
      by_cases h1 : id < p.1
      · simp only [schemasAssign, if_pos h1]
        rw [SchemasSorted, List.pairwise_cons]
        refine ⟨fun q hq => ?_, List.pairwise_cons.mpr hs⟩
        rcases List.mem_cons.mp hq with h' | h'
        · rw [h']
          exact h1
        · exact lt_trans h1 (hs.1 q h')
      · by_cases h2 : id = p.1
        · simp only [schemasAssign, if_neg h1, if_pos h2]
          rw [SchemasSorted, List.pairwise_cons]
          exact ⟨fun q hq => h2 ▸ hs.1 q hq, hs.2⟩
        · simp only [schemasAssign, if_neg h1, if_neg h2]
          rw [SchemasSorted, List.pairwise_cons]
          refine ⟨fun q hq => ?_, ih hs.2⟩
          rcases schemasAssign_mem hq with h' | h'
          · rw [h']
            exact Nat.lt_of_le_of_ne (Nat.le_of_not_lt h1) fun he => h2 he.symm
          · exact hs.1 q h'

/-- `insert_schema` when the content dedup scan hits: reuse the id, leave the
store unchanged. -/
theorem insert_schema_found {s : Store} {d : SchemaDefinition} {ty : SchemaType}
    {i : SchemaId} (h : findSchema ty d s.schemas = some i) :
    s.insert_schema d ty = (⟨i, false⟩, s) := by
  simp [Store.insert_schema, h]

/-- `insert_schema` when the content is new: allocate `nextSchemaId` and append. -/
theorem insert_schema_fresh {s : Store} {d : SchemaDefinition} {ty : SchemaType}
    (h : findSchema ty d s.schemas = Option.none) (hs : SchemasSorted s.schemas) :
    s.insert_schema d ty =
      (⟨nextSchemaId s.schemas, true⟩,
        { s with schemas := s.schemas ++ [(nextSchemaId s.schemas, ⟨ty, d⟩)] }) := by
  have hgt := nextSchemaId_gt hs
  have hemp := schemasEmplace_gt (⟨ty, d⟩ : SchemaEntry) hgt
  simp [Store.insert_schema, h, hemp]

/-! ### Lemmas: version-list primitives -/

/-- The per-subject invariant: version numbers strictly ascending (hence
unique). -/
def VersSorted (vs : List SubjectVersionId) : Prop :=
  vs.Pairwise (fun a b => a.version < b.version)

instance (vs : List SubjectVersionId) : Decidable (VersSorted vs) :=
  inferInstanceAs (Decidable (vs.Pairwise _))

theorem versSorted_iff_map {vs : List SubjectVersionId} :
    VersSorted vs ↔ (vs.map SubjectVersionId.version).Pairwise (· < ·) :=
  (List.pairwise_map).symm

theorem versSorted_of_map_eq {vs vs' : List SubjectVersionId}
    (h : vs'.map SubjectVersionId.version = vs.map SubjectVersionId.version)
    (hs : VersSorted vs) : VersSorted vs' := by
  rw [versSorted_iff_map, h, ← versSorted_iff_map]
  exact hs

theorem nextVersion_gt {vs : List SubjectVersionId} (h : VersSorted vs) :
    ∀ v ∈ vs, v.version < nextVersion vs := by
  induction vs with
  | nil => intro v hv; cases hv
  | cons x rest ih =>
      rw [VersSorted, List.pairwise_cons] at h
      intro v hv
      rcases List.mem_cons.mp hv with h' | h'
      · subst h'
        cases rest with
        | nil => simp [nextVersion]
        | cons y t =>
            have hy : v.version < y.version := h.1 y (List.mem_cons_self y t)
            have ht := ih h.2 y (List.mem_cons_self y t)
            simpa [nextVersion] using lt_trans hy ht
      · cases rest with
        | nil => cases h'
        | cons y t => simpa [nextVersion] using ih h.2 v h'

theorem versionsFind_some {ver : SchemaVersion} {vs : List SubjectVersionId}
    {v : SubjectVersionId} (h : versionsFind ver vs = some v) :
    v ∈ vs ∧ v.version = ver := by
  induction vs with
  | nil => simp [versionsFind] at h
  | cons w rest ih =>
      by_cases h1 : w.version < ver
      · simp only [versionsFind, if_pos h1] at h
        exact ⟨List.mem_cons_of_mem _ (ih h).1, (ih h).2⟩
      · by_cases h2 : w.version = ver
        · simp only [versionsFind, if_neg h1, if_pos h2] at h
          have := Option.some.inj h
          exact ⟨by rw [← this]; exact List.mem_cons_self w rest, by rw [← this]; exact h2⟩
        · simp [versionsFind, if_neg h1, if_neg h2] at h

theorem versionsFind_gt {ver : SchemaVersion} {vs : List SubjectVersionId}
    (h : ∀ v ∈ vs, ver < v.version) : versionsFind ver vs = Option.none := by
  induction vs with
  | nil => simp [versionsFind]
  | cons w rest ih =>
      have hw := h w (List.mem_cons_self w rest)
      have h1 : ¬ w.version < ver := Nat.lt_asymm hw
      have h2 : ¬ w.version = ver := fun he => absurd he.symm (Nat.ne_of_lt hw)
      simp only [versionsFind, if_neg h1, if_neg h2]

theorem versionsFind_append_gt {vs : List SubjectVersionId} (w : SubjectVersionId)
    (h : ∀ v ∈ vs, v.version < w.version) :
    versionsFind w.version (vs ++ [w]) = some w := by
  induction vs with
  | nil => simp [versionsFind]
  | cons v rest ih =>
      have hv := h v (List.mem_cons_self v rest)
      simp only [List.cons_append, versionsFind, if_pos hv]
      exact ih fun q hq => h q (List.mem_cons_of_mem _ hq)

theorem versionsErase_sublist (ver : SchemaVersion) (vs : List SubjectVersionId) :
    List.Sublist (versionsErase ver vs) vs := by
  induction vs with
  | nil => simp [versionsErase]
  | cons v rest ih =>
      by_cases h1 : v.version < ver
      · simp only [versionsErase, if_pos h1]
        exact List.Sublist.cons₂ v ih
      · by_cases h2 : v.version = ver
        · simp only [versionsErase, if_neg h1, if_pos h2]
          exact List.sublist_cons_self v rest
        · simp only [versionsErase, if_neg h1, if_neg h2]
          exact List.Sublist.refl _

theorem versionsFind_erase {ver : SchemaVersion} {vs : List SubjectVersionId}
    (hs : VersSorted vs) :
    versionsFind ver (versionsErase ver vs) = Option.none := by
  induction vs with
  | nil => simp [versionsErase, versionsFind]
  | cons v rest ih =>
      rw [VersSorted, List.pairwise_cons] at hs
      by_cases h1 : v.version < ver
      · simp only [versionsErase, if_pos h1, versionsFind]
        exact ih hs.2
      · by_cases h2 : v.version = ver
        · simp only [versionsErase, if_neg h1, if_pos h2]
          exact versionsFind_gt fun q hq => h2 ▸ hs.1 q hq
        · simp only [versionsErase, if_neg h1, if_neg h2, versionsFind, if_neg h1, if_neg h2]

theorem versionsFind_softDelete (ver : SchemaVersion) (vs : List SubjectVersionId) :
    versionsFind ver (versionsSoftDelete ver vs) =
      (versionsFind ver vs).map (fun v => { v with deleted := true }) := by
  induction vs with
  | nil => simp [versionsSoftDelete, versionsFind]
  | cons v rest ih =>
      by_cases h1 : v.version < ver
      · simp only [versionsSoftDelete, if_pos h1, versionsFind, if_pos h1]
        exact ih
      · by_cases h2 : v.version = ver
        · simp only [versionsSoftDelete, if_neg h1, if_pos h2, versionsFind]
          simp [if_neg h1, if_pos h2]
        · simp only [versionsSoftDelete, if_neg h1, if_neg h2, versionsFind, if_neg h1, if_neg h2]
          simp

theorem versionsSoftDelete_map (ver : SchemaVersion) (vs : List SubjectVersionId) :
    (versionsSoftDelete ver vs).map SubjectVersionId.version =
      vs.map SubjectVersionId.version := by
  induction vs with
  | nil => simp [versionsSoftDelete]
  | cons v rest ih =>
      by_cases h1 : v.version < ver
      · simp [versionsSoftDelete, if_pos h1, ih]
      · by_cases h2 : v.version = ver
        · simp [versionsSoftDelete, if_neg h1, if_pos h2]
        · simp [versionsSoftDelete, if_neg h1, if_neg h2]

theorem undeleteFirst_map (id : SchemaId) (vs : List SubjectVersionId) :
    (undeleteFirst id vs).map SubjectVersionId.version =
      vs.map SubjectVersionId.version := by
  induction vs with
  | nil => simp [undeleteFirst]
  | cons v rest ih =>
      by_cases h1 : v.id = id
      · simp [undeleteFirst, if_pos h1]
      · simp [undeleteFirst, if_neg h1, ih]

theorem versSorted_softDelete {ver : SchemaVersion} {vs : List SubjectVersionId}
    (hs : VersSorted vs) : VersSorted (versionsSoftDelete ver vs) :=
  versSorted_of_map_eq (versionsSoftDelete_map ver vs) hs

theorem versSorted_undeleteFirst {id : SchemaId} {vs : List SubjectVersionId}
    (hs : VersSorted vs) : VersSorted (undeleteFirst id vs) :=
  versSorted_of_map_eq (undeleteFirst_map id vs) hs

theorem versSorted_erase {ver : SchemaVersion} {vs : List SubjectVersionId}
    (hs : VersSorted vs) : VersSorted (versionsErase ver vs) :=
  hs.sublist (versionsErase_sublist ver vs)

theorem versSorted_append_next {vs : List SubjectVersionId} (hs : VersSorted vs)
    (id : SchemaId) : VersSorted (vs ++ [⟨nextVersion vs, id, false⟩]) := by
  rw [VersSorted, List.pairwise_append]
  refine ⟨hs, List.pairwise_singleton _ _, fun a ha b hb => ?_⟩
  have : b = (⟨nextVersion vs, id, false⟩ : SubjectVersionId) := by simpa using hb
  rw [this]
  exact nextVersion_gt hs a ha

theorem versionsUpsert_mem {w : SubjectVersionId} {vs : List SubjectVersionId}
    {u : SubjectVersionId} (h : u ∈ (versionsUpsert w vs).2) : u = w ∨ u ∈ vs := by
  induction vs with
  | nil =>
      simp [versionsUpsert] at h
      exact Or.inl h
  | cons v rest ih =>
      by_cases h1 : v.version < w.version
      · simp only [versionsUpsert, if_pos h1] at h
        rcases List.mem_cons.mp h with h' | h'
        · exact Or.inr (by simp [h'])
        · rcases ih h' with h'' | h''
          · exact Or.inl h''
          · exact Or.inr (List.mem_cons_of_mem _ h'')
      · by_cases h2 : v.version = w.version
        · simp only [versionsUpsert, if_neg h1, if_pos h2] at h
          rcases List.mem_cons.mp h with h' | h'
          · exact Or.inl h'
          · exact Or.inr (List.mem_cons_of_mem _ h')
        · simp only [versionsUpsert, if_neg h1, if_neg h2] at h
          rcases List.mem_cons.mp h with h' | h'
          · exact Or.inl h'
          · exact Or.inr h'

theorem versionsUpsert_sorted {w : SubjectVersionId} {vs : List SubjectVersionId}
    (hs : VersSorted vs) : VersSorted (versionsUpsert w vs).2 := by
  induction vs with
  | nil => simp [versionsUpsert, VersSorted]
  | cons v rest ih =>
      rw [VersSorted, List.pairwise_cons] at hs
      by_cases h1 : v.version < w.version
      · simp only [versionsUpsert, if_pos h1]
        rw [VersSorted, List.pairwise_cons]
        refine ⟨fun u hu => ?_, ih hs.2⟩
        rcases versionsUpsert_mem hu with h' | h'
        · rw [h']
          exact h1
        · exact hs.1 u h'
      · by_cases h2 : v.version = w.version
        · simp only [versionsUpsert, if_neg h1, if_pos h2]
          rw [VersSorted, List.pairwise_cons]
          exact ⟨fun u hu => h2 ▸ hs.1 u hu, hs.2⟩
        · simp only [versionsUpsert, if_neg h1, if_neg h2]
          have hwv : w.version < v.version :=
            Nat.lt_of_le_of_ne (Nat.le_of_not_lt h1) fun he => h2 he.symm
          rw [VersSorted, List.pairwise_cons]
          refine ⟨fun u hu => ?_, List.pairwise_cons.mpr hs⟩
          rcases List.mem_cons.mp hu with h' | h'
          · rw [h']
            exact hwv
          · exact lt_trans hwv (hs.1 u h')

theorem versionsFind_undeleteFirst {id : SchemaId} {vs : List SubjectVersionId}
    {v : SubjectVersionId} (hs : VersSorted vs)
    (h : vs.find? (fun u => u.id == id) = some v) :
    versionsFind v.version (undeleteFirst id vs) = some ⟨v.version, v.id, false⟩ := by
  induction vs with
  | nil => simp at h
  | cons w rest ih =>
      rw [VersSorted, List.pairwise_cons] at hs
      by_cases hw : w.id = id
      · simp only [List.find?_cons, hw, beq_self_eq_true, cond_true] at h
        have hv := Option.some.inj h
        simp only [undeleteFirst, if_pos hw]
        rw [← hv]
        simp [versionsFind]
      · have hb : (w.id == id) = false := beq_eq_false_iff_ne.mpr hw
        simp only [List.find?_cons, hb, cond_false] at h
        have hvmem := List.mem_of_find?_eq_some h
        have hlt : w.version < v.version := hs.1 v hvmem
        simp only [undeleteFirst, if_neg hw, versionsFind, if_pos hlt]
        exact ih hs.2 h

/-! ### Branch characterisations of the operations -/

theorem insert_subject_found {s : Store} {sub : Subject} {id : SchemaId}
    {e : SubjectEntry} {v : SubjectVersionId}
    (he : (subjFind sub s.subjects).getD SubjectEntry.default = e)
    (hv : e.versions.find? (fun u => u.id == id) = some v) :
    s.insert_subject sub id =
      ((v.version, v.deleted),
        { s with subjects := subjStore sub { e with deleted := false, versions := undeleteFirst id e.versions } s.subjects }) := by
  subst he
  simp [Store.insert_subject, insertSubjectEntry, hv]

theorem insert_subject_fresh {s : Store} {sub : Subject} {id : SchemaId}
    {e : SubjectEntry}
    (he : (subjFind sub s.subjects).getD SubjectEntry.default = e)
    (hv : e.versions.find? (fun u => u.id == id) = Option.none) :
    s.insert_subject sub id =
      ((nextVersion e.versions, true),
        { s with subjects := subjStore sub { e with deleted := false, versions := e.versions ++ [⟨nextVersion e.versions, id, false⟩] } s.subjects }) := by
  subst he
  simp [Store.insert_subject, insertSubjectEntry, hv]

theorem upsert_subject_def {s : Store} {sub : Subject} (version : SchemaVersion)
    (id : SchemaId) (deleted : Bool) {e : SubjectEntry}
    (he : (subjFind sub s.subjects).getD SubjectEntry.default = e) :
    s.upsert_subject sub version id deleted =
      ((versionsUpsert ⟨version, id, deleted⟩ e.versions).1,
        { s with subjects := subjStore sub { e with deleted := false, versions := (versionsUpsert ⟨version, id, deleted⟩ e.versions).2 } s.subjects }) := by
  subst he
  simp [Store.upsert_subject]

theorem get_subject_schema_no_subject {s : Store} {sub : Subject}
    (version : SchemaVersion) (inc_del : Bool)
    (hf : subjFind sub s.subjects = Option.none) :
    s.get_subject_schema sub version inc_del = Except.error ErrorCode.subject_not_found := by
  simp [Store.get_subject_schema, hf]

theorem get_subject_schema_deleted_subject {s : Store} {sub : Subject}
    (version : SchemaVersion) {inc_del : Bool} {e : SubjectEntry}
    (hf : subjFind sub s.subjects = some e) (hd : (e.deleted && !inc_del) = true) :
    s.get_subject_schema sub version inc_del = Except.error ErrorCode.subject_not_found := by
  simp [Store.get_subject_schema, hf, hd]

theorem get_subject_schema_no_version {s : Store} {sub : Subject}
    {version : SchemaVersion} {inc_del : Bool} {e : SubjectEntry}
    (hf : subjFind sub s.subjects = some e) (hd : (e.deleted && !inc_del) = false)
    (hv : versionsFind version e.versions = Option.none) :
    s.get_subject_schema sub version inc_del =
      Except.error ErrorCode.subject_version_not_found := by
  simp [Store.get_subject_schema, hf, hd, hv]

theorem get_subject_schema_ok {s : Store} {sub : Subject}
    {version : SchemaVersion} {inc_del : Bool} {e : SubjectEntry}
    {v : SubjectVersionId} {sc : SchemaEntry}
    (hf : subjFind sub s.subjects = some e) (hd : (e.deleted && !inc_del) = false)
    (hv : versionsFind version e.versions = some v)
    (hs : schemasFind v.id s.schemas = some sc) :
    s.get_subject_schema sub version inc_del =
      Except.ok ⟨sub, v.version, v.id, sc.type, sc.definition, v.deleted⟩ := by
  simp [Store.get_subject_schema, hf, hd, hv, Store.get_schema, hs]

theorem get_versions_no_subject {s : Store} {sub : Subject} (inc_del : Bool)
    (hf : subjFind sub s.subjects = Option.none) :
    s.get_versions sub inc_del = Except.error ErrorCode.subject_not_found := by
  simp [Store.get_versions, hf]

theorem get_versions_deleted_subject {s : Store} {sub : Subject} {inc_del : Bool}
    {e : SubjectEntry} (hf : subjFind sub s.subjects = some e)
    (hd : (e.deleted && !inc_del) = true) :
    s.get_versions sub inc_del = Except.error ErrorCode.subject_not_found := by
  simp [Store.get_versions, hf, hd]

theorem get_versions_ok {s : Store} {sub : Subject} {inc_del : Bool}
    {e : SubjectEntry} (hf : subjFind sub s.subjects = some e)
    (hd : (e.deleted && !inc_del) = false) :
    s.get_versions sub inc_del =
      Except.ok
        ((e.versions.filter (fun v => inc_del || !(v.deleted || e.deleted))).map
          SubjectVersionId.version) := by
  simp [Store.get_versions, hf, hd]

theorem delete_subject_no_subject {s : Store} {sub : Subject} (permanent : Bool)
    (hf : subjFind sub s.subjects = Option.none) :
    s.delete_subject sub permanent = (Except.error ErrorCode.subject_not_found, s) := by
  simp [Store.delete_subject, hf]

theorem delete_subject_not_deleted {s : Store} {sub : Subject} {e : SubjectEntry}
    (hf : subjFind sub s.subjects = some e) (hd : e.deleted = false) :
    s.delete_subject sub true = (Except.error ErrorCode.subject_not_deleted, s) := by
  simp [Store.delete_subject, hf, hd]

theorem delete_subject_already_soft {s : Store} {sub : Subject} {e : SubjectEntry}
    (hf : subjFind sub s.subjects = some e) (hd : e.deleted = true) :
    s.delete_subject sub false = (Except.error ErrorCode.subject_soft_deleted, s) := by
  simp [Store.delete_subject, hf, hd]

theorem delete_subject_soft {s : Store} {sub : Subject} {e : SubjectEntry}
    (hf : subjFind sub s.subjects = some e) (hd : e.deleted = false) :
    s.delete_subject sub false =
      (Except.ok (e.versions.map SubjectVersionId.version),
        { s with subjects := subjStore sub { e with deleted := true } s.subjects }) := by
  simp [Store.delete_subject, hf, hd]

theorem delete_subject_permanent {s : Store} {sub : Subject} {e : SubjectEntry}
    (hf : subjFind sub s.subjects = some e) (hd : e.deleted = true) :
    s.delete_subject sub true =
      (Except.ok (e.versions.map SubjectVersionId.version),
        { s with subjects := subjErase sub s.subjects }) := by
  simp [Store.delete_subject, hf, hd]

theorem delete_subject_version_no_subject {s : Store} {sub : Subject}
    (version : SchemaVersion) (permanent inc_del : Bool)
    (hf : subjFind sub s.subjects = Option.none) :
    s.delete_subject_version sub version permanent inc_del =
      (Except.error ErrorCode.subject_not_found, s) := by
  simp [Store.delete_subject_version, hf]

theorem delete_subject_version_deleted_subject {s : Store} {sub : Subject}
    (version : SchemaVersion) (permanent : Bool) {inc_del : Bool} {e : SubjectEntry}
    (hf : subjFind sub s.subjects = some e) (hd : (e.deleted && !inc_del) = true) :
    s.delete_subject_version sub version permanent inc_del =
      (Except.error ErrorCode.subject_not_found, s) := by
  simp [Store.delete_subject_version, hf, hd]

theorem delete_subject_version_no_version {s : Store} {sub : Subject}
    {version : SchemaVersion} (permanent : Bool) {inc_del : Bool} {e : SubjectEntry}
    (hf : subjFind sub s.subjects = some e) (hd : (e.deleted && !inc_del) = false)
    (hv : versionsFind version e.versions = Option.none) :
    s.delete_subject_version sub version permanent inc_del =
      (Except.error ErrorCode.subject_version_not_found, s) := by
  simp [Store.delete_subject_version, hf, hd, hv]

theorem delete_subject_version_not_deleted_err {s : Store} {sub : Subject}
    {version : SchemaVersion} {permanent inc_del : Bool} {e : SubjectEntry}
    {v : SubjectVersionId}
    (hf : subjFind sub s.subjects = some e) (hd : (e.deleted && !inc_del) = false)
    (hv : versionsFind version e.versions = some v)
    (h2 : (!v.deleted && permanent && !inc_del) = true) :
    s.delete_subject_version sub version permanent inc_del =
      (Except.error ErrorCode.subject_version_not_deleted, s) := by
  simp [Store.delete_subject_version, hf, hd, hv, h2]

theorem delete_subject_version_soft_deleted_err {s : Store} {sub : Subject}
    {version : SchemaVersion} {permanent inc_del : Bool} {e : SubjectEntry}
    {v : SubjectVersionId}
    (hf : subjFind sub s.subjects = some e) (hd : (e.deleted && !inc_del) = false)
    (hv : versionsFind version e.versions = some v)
    (h2 : (!v.deleted && permanent && !inc_del) = false)
    (h3 : (v.deleted && !permanent && !inc_del) = true) :
    s.delete_subject_version sub version permanent inc_del =
      (Except.error ErrorCode.subject_version_soft_deleted, s) := by
  simp [Store.delete_subject_version, hf, hd, hv, h2, h3]

theorem delete_subject_version_permanent {s : Store} {sub : Subject}
    {version : SchemaVersion} {inc_del : Bool} {e : SubjectEntry}
    {v : SubjectVersionId}
    (hf : subjFind sub s.subjects = some e) (hd : (e.deleted && !inc_del) = false)
    (hv : versionsFind version e.versions = some v)
    (h2 : (!v.deleted && true && !inc_del) = false) :
    s.delete_subject_version sub version true inc_del =
      (Except.ok true,
        { s with subjects := subjStore sub { e with versions := versionsErase version e.versions } s.subjects }) := by
  have h2n : (!v.deleted && true && !inc_del) ≠ true := by
    rw [h2]
    exact Bool.false_ne_true
  have h3n : (v.deleted && !true && !inc_del) ≠ true := by simp
  simp [Store.delete_subject_version, hf, hd, hv, h2n, h3n]
  intro hvd
  rw [hvd] at h2
  simpa using h2

theorem delete_subject_version_soft {s : Store} {sub : Subject}
    {version : SchemaVersion} {inc_del : Bool} {e : SubjectEntry}
    {v : SubjectVersionId}
    (hf : subjFind sub s.subjects = some e) (hd : (e.deleted && !inc_del) = false)
    (hv : versionsFind version e.versions = some v)
    (h3 : (v.deleted && !false && !inc_del) = false) :
    s.delete_subject_version sub version false inc_del =
      (Except.ok (!v.deleted),
        { s with subjects := subjStore sub { e with versions := versionsSoftDelete version e.versions } s.subjects }) := by
  have h2n : (!v.deleted && false && !inc_del) ≠ true := by simp
  have h3n : (v.deleted && !false && !inc_del) ≠ true := by
    rw [h3]
    exact Bool.false_ne_true
  simp [Store.delete_subject_version, hf, hd, hv, h2n, h3n]
  intro hvd
  rw [hvd] at h3
  simpa using h3

theorem set_compatibility_no_subject {s : Store} {sub : Subject}
    (c : CompatibilityLevel) (hf : subjFind sub s.subjects = Option.none) :
    s.set_compatibility sub c = (Except.error ErrorCode.subject_not_found, s) := by
  simp [Store.set_compatibility, hf]

theorem set_compatibility_deleted {s : Store} {sub : Subject}
    (c : CompatibilityLevel) {e : SubjectEntry}
    (hf : subjFind sub s.subjects = some e) (hd : e.deleted = true) :
    s.set_compatibility sub c = (Except.error ErrorCode.subject_not_found, s) := by
  simp [Store.set_compatibility, hf, hd]

theorem set_compatibility_ok {s : Store} {sub : Subject} (c : CompatibilityLevel)
    {e : SubjectEntry} (hf : subjFind sub s.subjects = some e)
    (hd : e.deleted = false) :
    s.set_compatibility sub c =
      (Except.ok (decide (e.compatibility ≠ some c)),
        { s with subjects := subjStore sub { e with compatibility := some c } s.subjects }) := by
  simp [Store.set_compatibility, hf, hd]

theorem clear_compatibility_no_subject {s : Store} {sub : Subject}
    (hf : subjFind sub s.subjects = Option.none) :
    s.clear_compatibility sub = (Except.error ErrorCode.subject_not_found, s) := by
  simp [Store.clear_compatibility, hf]

theorem clear_compatibility_ok {s : Store} {sub : Subject} {e : SubjectEntry}
    (hf : subjFind sub s.subjects = some e) :
    s.clear_compatibility sub =
      (Except.ok e.compatibility.isSome,
        { s with subjects := subjStore sub { e with compatibility := Option.none } s.subjects }) := by
  simp [Store.clear_compatibility, hf]

/-! ### Store well-formedness and its preservation by every operation -/

/-- Well-formedness of a store: schema keys strictly ascending, subject keys
unique, and every subject's version list strictly ascending. -/
def Store.WF (s : Store) : Prop :=
  SchemasSorted s.schemas ∧ (s.subjects.map Prod.fst).Nodup ∧
    ∀ p ∈ s.subjects, VersSorted p.2.versions

instance (s : Store) : Decidable s.WF :=
  inferInstanceAs
    (Decidable
      (SchemasSorted s.schemas ∧ (s.subjects.map Prod.fst).Nodup ∧
        ∀ p ∈ s.subjects, VersSorted p.2.versions))

theorem WF_empty : Store.empty.WF := by
  refine ⟨?_, ?_, ?_⟩ <;> simp [Store.empty, SchemasSorted]

theorem Store.WF.find_versSorted {s : Store} (h : s.WF) {sub : Subject}
    {e : SubjectEntry} (hf : subjFind sub s.subjects = some e) :
    VersSorted e.versions :=
  h.2.2 (sub, e) (subjFind_mem hf)

theorem Store.WF.entry_versSorted {s : Store} (h : s.WF) (sub : Subject) :
    VersSorted ((subjFind sub s.subjects).getD SubjectEntry.default).versions := by
  cases hf : subjFind sub s.subjects with
  | none => simp [SubjectEntry.default, VersSorted]
  | some e => simpa using h.find_versSorted hf

theorem Store.WF.store_subject {s : Store} (h : s.WF) {sub : Subject}
    {e : SubjectEntry} (he : VersSorted e.versions) :
    Store.WF ⟨s.schemas, subjStore sub e s.subjects, s.compatibility⟩ := by
  refine ⟨h.1, subjStore_keys_nodup sub e h.2.1, fun p hp => ?_⟩
  rcases subjStore_mem sub e hp with h' | h'
  · rw [h']
    exact he
  · exact h.2.2 p h'

theorem Store.WF.erase_subject {s : Store} (h : s.WF) (sub : Subject) :
    Store.WF ⟨s.schemas, subjErase sub s.subjects, s.compatibility⟩ := by
  refine ⟨h.1, h.2.1.sublist ((subjErase_sublist sub s.subjects).map Prod.fst), fun p hp => ?_⟩
  exact h.2.2 p ((subjErase_sublist sub s.subjects).subset hp)

theorem WF_insert_schema {s : Store} (h : s.WF) (d : SchemaDefinition)
    (ty : SchemaType) : (s.insert_schema d ty).2.WF := by
  cases hf : findSchema ty d s.schemas with
  | none =>
      rw [insert_schema_fresh hf h.1]
      exact ⟨schemasSorted_append_last h.1 _ (nextSchemaId_gt h.1), h.2.1, h.2.2⟩
  | some i =>
      rw [insert_schema_found hf]
      exact h

theorem WF_insert_subject {s : Store} (h : s.WF) (sub : Subject) (id : SchemaId) :
    (s.insert_subject sub id).2.WF := by
  have hve := h.entry_versSorted sub
  have hr : VersSorted
      (insertSubjectEntry id ((subjFind sub s.subjects).getD SubjectEntry.default)).2.2.versions := by
    unfold insertSubjectEntry
    cases hf : ((subjFind sub s.subjects).getD SubjectEntry.default).versions.find?
        (fun v => v.id == id) with
    | none => simpa using versSorted_append_next hve id
    | some v => simpa using versSorted_undeleteFirst hve
  exact h.store_subject hr

theorem WF_insert {s : Store} (h : s.WF) (sub : Subject) (d : SchemaDefinition)
    (ty : SchemaType) : (s.insert sub d ty).2.WF :=
  WF_insert_subject (WF_insert_schema h d ty) sub (s.insert_schema d ty).1.id

theorem WF_upsert_schema {s : Store} (h : s.WF) (id : SchemaId)
    (d : SchemaDefinition) (ty : SchemaType) : (s.upsert_schema id d ty).2.WF :=
  ⟨schemasAssign_sorted h.1, h.2.1, h.2.2⟩

theorem WF_upsert_subject {s : Store} (h : s.WF) (sub : Subject)
    (version : SchemaVersion) (id : SchemaId) (deleted : Bool) :
    (s.upsert_subject sub version id deleted).2.WF := by
  have hve := h.entry_versSorted sub
  exact h.store_subject (versionsUpsert_sorted hve)

theorem WF_upsert {s : Store} (h : s.WF) (sub : Subject) (d : SchemaDefinition)
    (ty : SchemaType) (id : SchemaId) (version : SchemaVersion) (deleted : Bool) :
    (s.upsert sub d ty id version deleted).2.WF :=
  WF_upsert_subject (WF_upsert_schema h id d ty) sub version id deleted

theorem WF_delete_subject {s : Store} (h : s.WF) (sub : Subject)
    (permanent : Bool) : (s.delete_subject sub permanent).2.WF := by
  cases hf : subjFind sub s.subjects with
  | none =>
      simp only [Store.delete_subject, hf]
      exact h
  | some e =>
      simp only [Store.delete_subject, hf]
      split_ifs with h1 h2 h3
      · exact h
      · exact h
      · exact h.erase_subject sub
      · refine h.store_subject ?_
        show VersSorted e.versions
        exact h.find_versSorted hf

theorem WF_delete_subject_version {s : Store} (h : s.WF) (sub : Subject)
    (version : SchemaVersion) (permanent : Bool) (inc_del : Bool) :
    (s.delete_subject_version sub version permanent inc_del).2.WF := by
  cases hf : subjFind sub s.subjects with
  | none =>
      simp only [Store.delete_subject_version, hf]
      exact h
  | some e =>
      cases hd : (e.deleted && !inc_del) with
      | true =>
          rw [delete_subject_version_deleted_subject version permanent hf hd]
          exact h
      | false =>
          cases hv : versionsFind version e.versions with
          | none =>
              rw [delete_subject_version_no_version permanent hf hd hv]
              exact h
          | some v =>
              cases h2 : (!v.deleted && permanent && !inc_del) with
              | true =>
                  rw [delete_subject_version_not_deleted_err hf hd hv h2]
                  exact h
              | false =>
                  cases h3 : (v.deleted && !permanent && !inc_del) with
                  | true =>
                      rw [delete_subject_version_soft_deleted_err hf hd hv h2 h3]
                      exact h
                  | false =>
                      cases permanent with
                      | true =>
                          rw [delete_subject_version_permanent hf hd hv h2]
                          refine h.store_subject ?_
                          show VersSorted (versionsErase version e.versions)
                          exact versSorted_erase (h.find_versSorted hf)
                      | false =>
                          rw [delete_subject_version_soft hf hd hv h3]
                          refine h.store_subject ?_
                          show VersSorted (versionsSoftDelete version e.versions)
                          exact versSorted_softDelete (h.find_versSorted hf)

theorem WF_set_compatibility_global {s : Store} (h : s.WF)
    (c : CompatibilityLevel) : (s.set_compatibility_global c).2.WF :=
  ⟨h.1, h.2.1, h.2.2⟩

theorem WF_set_compatibility {s : Store} (h : s.WF) (sub : Subject)
    (c : CompatibilityLevel) : (s.set_compatibility sub c).2.WF := by
  cases hf : subjFind sub s.subjects with
  | none =>
      simp only [Store.set_compatibility, hf]
      exact h
  | some e =>
      simp only [Store.set_compatibility, hf]
      split_ifs with h1
      · exact h
      · refine h.store_subject ?_
        show VersSorted e.versions
        exact h.find_versSorted hf

theorem WF_clear_compatibility {s : Store} (h : s.WF) (sub : Subject) :
    (s.clear_compatibility sub).2.WF := by
  cases hf : subjFind sub s.subjects with
  | none =>
      simp only [Store.clear_compatibility, hf]
      exact h
  | some e =>
      simp only [Store.clear_compatibility, hf]
      refine h.store_subject ?_
      show VersSorted e.versions
      exact h.find_versSorted hf

/-- States reachable from a fresh store through the public mutating
operations. -/
inductive Reachable : Store → Prop where
  | empty : Reachable Store.empty
  | insert {s : Store} (sub : Subject) (d : SchemaDefinition) (ty : SchemaType) :
      Reachable s → Reachable (s.insert sub d ty).2
  | upsert {s : Store} (sub : Subject) (d : SchemaDefinition) (ty : SchemaType)
      (id : SchemaId) (version : SchemaVersion) (deleted : Bool) :
      Reachable s → Reachable (s.upsert sub d ty id version deleted).2
  | delete_subject {s : Store} (sub : Subject) (permanent : Bool) :
      Reachable s → Reachable (s.delete_subject sub permanent).2
  | delete_subject_version {s : Store} (sub : Subject) (version : SchemaVersion)
      (permanent : Bool) (inc_del : Bool) :
      Reachable s → Reachable (s.delete_subject_version sub version permanent inc_del).2
  | set_compatibility_global {s : Store} (c : CompatibilityLevel) :
      Reachable s → Reachable (s.set_compatibility_global c).2
  | set_compatibility {s : Store} (sub : Subject) (c : CompatibilityLevel) :
      Reachable s → Reachable (s.set_compatibility sub c).2
  | clear_compatibility {s : Store} (sub : Subject) :
      Reachable s → Reachable (s.clear_compatibility sub).2

/-- Every reachable store is well-formed. -/
theorem Reachable.wf {s : Store} (h : Reachable s) : s.WF := by
  induction h with
  | empty => exact WF_empty
  | insert sub d ty _ ih => exact WF_insert ih sub d ty
  | upsert sub d ty id version deleted _ ih => exact WF_upsert ih sub d ty id version deleted
  | delete_subject sub permanent _ ih => exact WF_delete_subject ih sub permanent
  | delete_subject_version sub version permanent inc_del _ ih =>
      exact WF_delete_subject_version ih sub version permanent inc_del
  | set_compatibility_global c _ ih => exact WF_set_compatibility_global ih c
  | set_compatibility sub c _ ih => exact WF_set_compatibility ih sub c
  | clear_compatibility sub _ ih => exact WF_clear_compatibility ih sub

/-! ### Glue lemmas for the top-level operations -/

theorem insert_schema_subjects (s : Store) (d : SchemaDefinition) (ty : SchemaType) :
    (s.insert_schema d ty).2.subjects = s.subjects := by
  cases hf : findSchema ty d s.schemas with
  | none => simp [Store.insert_schema, hf]
  | some i => simp [Store.insert_schema, hf]

theorem insert_def (s : Store) (sub : Subject) (d : SchemaDefinition) (ty : SchemaType) :
    s.insert sub d ty =
      (⟨((s.insert_schema d ty).2.insert_subject sub (s.insert_schema d ty).1.id).1.1,
        (s.insert_schema d ty).1.id,
        ((s.insert_schema d ty).2.insert_subject sub (s.insert_schema d ty).1.id).1.2⟩,
       ((s.insert_schema d ty).2.insert_subject sub (s.insert_schema d ty).1.id).2) := rfl

theorem upsert_def (s : Store) (sub : Subject) (d : SchemaDefinition) (ty : SchemaType)
    (id : SchemaId) (version : SchemaVersion) (deleted : Bool) :
    s.upsert sub d ty id version deleted =
      (s.upsert_schema id d ty).2.upsert_subject sub version id deleted := rfl

theorem find?_id_eq_none {i : SchemaId} {vs : List SubjectVersionId}
    (h : ∀ v ∈ vs, v.id ≠ i) :
    vs.find? (fun u => u.id == i) = Option.none :=
  List.find?_eq_none.mpr fun u hu => by simp [h u hu]

theorem find?_id_some {i : SchemaId} {vs : List SubjectVersionId} {v : SubjectVersionId}
    (h : vs.find? (fun u => u.id == i) = some v) : v.id = i := by
  have := List.find?_some h
  simpa using this

/-- Soft-deleting a version that is already soft-deleted leaves the list
unchanged. -/
theorem versionsSoftDelete_id {ver : SchemaVersion} {vs : List SubjectVersionId}
    {v : SubjectVersionId} (hv : versionsFind ver vs = some v)
    (hd : v.deleted = true) : versionsSoftDelete ver vs = vs := by
  induction vs with
  | nil => simp [versionsFind] at hv
  | cons w rest ih =>
      by_cases h1 : w.version < ver
      · simp only [versionsFind, if_pos h1] at hv
        simp only [versionsSoftDelete, if_pos h1, ih hv]
      · by_cases h2 : w.version = ver
        · simp only [versionsFind, if_neg h1, if_pos h2] at hv
          have hw := Option.some.inj hv
          simp only [versionsSoftDelete, if_neg h1, if_pos h2]
          have : w.deleted = true := by rw [hw, hd]
          rcases w with ⟨wv, wi, wd⟩
          simp only at this
          simp [this]
        · simp [versionsFind, if_neg h1, if_neg h2] at hv

/-! ### Example stores used as witnesses -/

/-- One insert into a fresh store: subject `s1` has version 1 → schema 1. -/
def exStore1 : Store := (Store.empty.insert "s1" "D1" SchemaType.avro).2

/-- `exStore1` with the subject `s1` soft-deleted. -/
def exStoreDel : Store := (exStore1.delete_subject "s1" false).2

/-- `exStore1` with version 1 of `s1` soft-deleted (the subject stays live). -/
def exStoreVDel : Store := (exStore1.delete_subject_version "s1" 1 false false).2

/-! ### C1 -/

/-- C1, counterexample: in `exStoreVDel` the only version entry of `s1` is
soft-deleted, yet `get_subject_schema(s1, 1, include_deleted=no)` does not
fail with `subject_version_not_found`: it succeeds, returning the entry with
its deleted flag. The claim that a soft-deleted version is treated as
not-found by this lookup is false. -/
theorem C1_counterexample :
    versionsFind 1 ((subjFind "s1" exStoreVDel.subjects).getD SubjectEntry.default).versions
        = some ⟨1, 1, true⟩ ∧
    exStoreVDel.get_subject_schema "s1" 1 false
        = Except.ok ⟨"s1", 1, 1, SchemaType.avro, "D1", true⟩ ∧
    exStoreVDel.get_subject_schema "s1" 1 false
        ≠ Except.error ErrorCode.subject_version_not_found := by
  refine ⟨by decide, by decide, by decide⟩

/-- C1 (amended): `get_subject_schema(sub, version, include_deleted=no)`
fails with `subject_not_found` when the subject is soft-deleted, and with
`include_deleted=yes` the same lookup succeeds; however a soft-deleted
version entry is *not* treated as not-found — the lookup succeeds and
reports the entry's deleted flag. -/
theorem C1_amended (s : Store) (sub : Subject) (ver : SchemaVersion)
    (e : SubjectEntry) (v : SubjectVersionId) (sc : SchemaEntry)
    (hf : subjFind sub s.subjects = some e) :
    (e.deleted = true →
       s.get_subject_schema sub ver false = Except.error ErrorCode.subject_not_found) ∧
    (versionsFind ver e.versions = some v → schemasFind v.id s.schemas = some sc →
       s.get_subject_schema sub ver true =
         Except.ok ⟨sub, v.version, v.id, sc.type, sc.definition, v.deleted⟩) ∧
    (e.deleted = false → versionsFind ver e.versions = some v →
       schemasFind v.id s.schemas = some sc →
       s.get_subject_schema sub ver false =
         Except.ok ⟨sub, v.version, v.id, sc.type, sc.definition, v.deleted⟩) := by
  refine ⟨fun hd => ?_, fun hv hs => ?_, fun hd hv hs => ?_⟩
  · exact get_subject_schema_deleted_subject ver hf (by simp [hd])
  · exact get_subject_schema_ok hf (by simp) hv hs
  · exact get_subject_schema_ok hf (by simp [hd]) hv hs

/-- Witness for C1: instantiates the amended claim on `exStoreDel`
(soft-deleted subject with one active version). -/
theorem C1_witness :
    subjFind "s1" exStoreDel.subjects
        = some ⟨Option.none, [⟨1, 1, false⟩], true⟩ ∧
    exStoreDel.get_subject_schema "s1" 1 false
        = Except.error ErrorCode.subject_not_found ∧
    exStoreDel.get_subject_schema "s1" 1 true
        = Except.ok ⟨"s1", 1, 1, SchemaType.avro, "D1", false⟩ := by
  have h := C1_amended exStoreDel "s1" 1 ⟨Option.none, [⟨1, 1, false⟩], true⟩
      ⟨1, 1, false⟩ ⟨SchemaType.avro, "D1"⟩ (by decide)
  exact ⟨by decide, h.1 (by decide), h.2.1 (by decide) (by decide)⟩

/-! ### C2 -/

/-- C2, counterexample: in `exStoreVDel` subject `s1` already has a version
(version 1, soft-deleted) referencing schema id 1, the id that
`insert("s1", "D1", avro)` deduplicates to.  The insert undeletes that entry
but reports `inserted = true` — not `inserted = false` as the claim states
(the code returns the exchanged *previous* deleted flag). -/
theorem C2_counterexample :
    ((subjFind "s1" exStoreVDel.subjects).getD SubjectEntry.default).versions
        = [⟨1, 1, true⟩] ∧
    findSchema SchemaType.avro "D1" exStoreVDel.schemas = some 1 ∧
    (exStoreVDel.insert "s1" "D1" SchemaType.avro).1 = ⟨1, 1, true⟩ ∧
    ¬ (exStoreVDel.insert "s1" "D1" SchemaType.avro).1.inserted = false := by
  refine ⟨by decide, by decide, by decide, by decide⟩

/-- C2 (amended): when some version of the subject already references the
schema id of the inserted (type, definition), `insert` undeletes the first
such entry and reports `inserted` equal to that entry's *previous* deleted
flag (`false` when it was active, `true` when it was soft-deleted); when no
version references the id, it appends a new version `last_version + 1`
(or 1 for an empty subject) and reports `inserted = true`. -/
theorem C2_amended (s : Store) (sub : Subject) (d : SchemaDefinition)
    (ty : SchemaType) (i : SchemaId) (e : SubjectEntry)
    (hi : (s.insert_schema d ty).1.id = i)
    (he : (subjFind sub s.subjects).getD SubjectEntry.default = e) :
    (∀ v, e.versions.find? (fun u => u.id == i) = some v →
       (s.insert sub d ty).1 = ⟨v.version, i, v.deleted⟩ ∧
       subjFind sub (s.insert sub d ty).2.subjects =
         some { e with deleted := false, versions := undeleteFirst i e.versions }) ∧
    ((∀ v ∈ e.versions, v.id ≠ i) →
       (s.insert sub d ty).1 = ⟨nextVersion e.versions, i, true⟩ ∧
       subjFind sub (s.insert sub d ty).2.subjects =
         some { e with deleted := false,
                       versions := e.versions ++ [⟨nextVersion e.versions, i, false⟩] }) := by
  have he1 : (subjFind sub (s.insert_schema d ty).2.subjects).getD SubjectEntry.default = e := by
    rw [insert_schema_subjects]
    exact he
  subst hi
  constructor
  · intro v hv
    have hins := insert_subject_found he1 hv
    rw [insert_def, hins]
    exact ⟨rfl, subjFind_store_self _ _ _⟩
  · intro hno
    have hins := insert_subject_fresh he1 (find?_id_eq_none hno)
    rw [insert_def, hins]
    exact ⟨rfl, subjFind_store_self _ _ _⟩

/-- Witness for C2: instantiates the amended claim on `exStore1`, where the
referenced version is active (`inserted = false`), and on the fresh-append
side with a new definition. -/
theorem C2_witness :
    (exStore1.insert "s1" "D1" SchemaType.avro).1 = ⟨1, 1, false⟩ ∧
    (exStore1.insert "s1" "D2" SchemaType.avro).1 = ⟨2, 2, true⟩ := by
  have h1 := (C2_amended exStore1 "s1" "D1" SchemaType.avro 1
      ⟨Option.none, [⟨1, 1, false⟩], false⟩ (by decide) (by decide)).1
      ⟨1, 1, false⟩ (by decide)
  have h2 := (C2_amended exStore1 "s1" "D2" SchemaType.avro 2
      ⟨Option.none, [⟨1, 1, false⟩], false⟩ (by decide) (by decide)).2
      (by decide)
  exact ⟨h1.1, h2.1⟩

/-! ### C3 -/

/-- C3: on an existing, not-soft-deleted subject with an existing version
entry, `delete_subject_version(sub, version, permanent=yes, include_deleted=no)`
on a not-soft-deleted version fails with `subject_version_not_deleted`;
`delete_subject_version(sub, version, permanent=no, include_deleted=no)` on an
already soft-deleted version fails with `subject_version_soft_deleted`; and
every successful call returns `true` exactly when it changed the store state
(permanent erase or fresh soft-delete). -/
theorem C3_delete_subject_version (s : Store) (sub : Subject) (ver : SchemaVersion)
    (e : SubjectEntry) (v : SubjectVersionId) (hwf : s.WF)
    (hf : subjFind sub s.subjects = some e) (hd : e.deleted = false)
    (hv : versionsFind ver e.versions = some v) :
    (v.deleted = false →
       s.delete_subject_version sub ver true false
         = (Except.error ErrorCode.subject_version_not_deleted, s)) ∧
    (v.deleted = true →
       s.delete_subject_version sub ver false false
         = (Except.error ErrorCode.subject_version_soft_deleted, s)) ∧
    (∀ permanent inc_del b s',
       s.delete_subject_version sub ver permanent inc_del = (Except.ok b, s') →
       (b = true ↔ s' ≠ s)) := by
  have hd' : ∀ b : Bool, (e.deleted && !b) = false := fun b => by simp [hd]
  refine ⟨fun hvd => ?_, fun hvd => ?_, fun permanent inc_del b s' hcall => ?_⟩
  · exact delete_subject_version_not_deleted_err hf (hd' false) hv (by simp [hvd])
  · exact delete_subject_version_soft_deleted_err hf (hd' false) hv (by simp [hvd])
      (by simp [hvd])
  · have hvs : VersSorted e.versions := hwf.find_versSorted hf
    cases permanent with
    | true =>
        cases h2c : (!v.deleted && true && !inc_del) with
        | true =>
            rw [delete_subject_version_not_deleted_err hf (hd' inc_del) hv h2c] at hcall
            simp at hcall
        | false =>
            rw [delete_subject_version_permanent hf (hd' inc_del) hv h2c] at hcall
            injection hcall with ha hb
            injection ha with hab
            subst hab
            subst hb
            constructor
            · intro _ heq
              have hsubj : subjStore sub { e with versions := versionsErase ver e.versions }
                  s.subjects = s.subjects := congrArg Store.subjects heq
              have hfind := subjFind_store_self sub
                  { e with versions := versionsErase ver e.versions } s.subjects
              rw [hsubj, hf] at hfind
              have hee := Option.some.inj hfind
              have hvers : versionsErase ver e.versions = e.versions :=
                (congrArg SubjectEntry.versions hee).symm
              have hnone := @versionsFind_erase ver e.versions hvs
              rw [hvers, hv] at hnone
              cases hnone
            · intro _
              rfl
    | false =>
        cases h3c : (v.deleted && !false && !inc_del) with
        | true =>
            rw [delete_subject_version_soft_deleted_err hf (hd' inc_del) hv
              (by simp) h3c] at hcall
            simp at hcall
        | false =>
            rw [delete_subject_version_soft hf (hd' inc_del) hv h3c] at hcall
            injection hcall with ha hb
            injection ha with hab
            subst hab
            subst hb
            cases hvd : v.deleted with
            | true =>
                have hid := versionsSoftDelete_id hv hvd
                have hS : ({ s with subjects := subjStore sub { e with versions := versionsSoftDelete ver e.versions } s.subjects } : Store) = s := by
                  rw [hid]
                  show ({ s with subjects := subjStore sub e s.subjects } : Store) = s
                  rw [subjStore_find_eq hf]
                constructor
                · intro hb'
                  exact absurd hb' (by decide)
                · intro hne
                  exact absurd hS hne
            | false =>
                constructor
                · intro _ heq
                  have hsubj : subjStore sub
                      { e with versions := versionsSoftDelete ver e.versions }
                      s.subjects = s.subjects := congrArg Store.subjects heq
                  have hfind := subjFind_store_self sub
                      { e with versions := versionsSoftDelete ver e.versions } s.subjects
                  rw [hsubj, hf] at hfind
                  have hee := Option.some.inj hfind
                  have hvers : versionsSoftDelete ver e.versions = e.versions :=
                    (congrArg SubjectEntry.versions hee).symm
                  have hsd := versionsFind_softDelete ver e.versions
                  rw [hvers, hv] at hsd
                  have hdel : v.deleted = true :=
                    congrArg SubjectVersionId.deleted (Option.some.inj hsd)
                  rw [hvd] at hdel
                  cases hdel
                · intro _
                  rfl

/-- Witness for C3 on `exStore1`: version 1 of `s1` is active, so a permanent
delete without prior soft-delete errors, and the soft-delete call succeeds
returning `true` with a changed store. -/
theorem C3_witness :
    exStore1.WF ∧
    subjFind "s1" exStore1.subjects = some ⟨Option.none, [⟨1, 1, false⟩], false⟩ ∧
    exStore1.delete_subject_version "s1" 1 true false
        = (Except.error ErrorCode.subject_version_not_deleted, exStore1) ∧
    (true = true ↔ (exStore1.delete_subject_version "s1" 1 false false).2 ≠ exStore1) := by
  have h := C3_delete_subject_version exStore1 "s1" 1
      ⟨Option.none, [⟨1, 1, false⟩], false⟩ ⟨1, 1, false⟩
      (by decide) (by decide) (by decide) (by decide)
  refine ⟨by decide, by decide, h.1 rfl, ?_⟩
  exact h.2.2 false false true (exStore1.delete_subject_version "s1" 1 false false).2
    (by decide)

/-! ### C4 -/

/-- C4: in every reachable store each subject's version entries are strictly
ascending in the version number (hence unique); this invariant is preserved
by `insert`, `upsert`, `delete_subject` and `delete_subject_version` (on any
well-formed store); consequently `get_versions` only ever returns strictly
ascending lists. -/
theorem C4_versions_sorted :
    (∀ s : Store, Reachable s → ∀ p ∈ s.subjects, VersSorted p.2.versions) ∧
    (∀ (s : Store) (sub : Subject) (d : SchemaDefinition) (ty : SchemaType),
       s.WF → ∀ p ∈ (s.insert sub d ty).2.subjects, VersSorted p.2.versions) ∧
    (∀ (s : Store) (sub : Subject) (d : SchemaDefinition) (ty : SchemaType)
       (id : SchemaId) (ver : SchemaVersion) (del : Bool),
       s.WF → ∀ p ∈ (s.upsert sub d ty id ver del).2.subjects, VersSorted p.2.versions) ∧
    (∀ (s : Store) (sub : Subject) (permanent : Bool),
       s.WF → ∀ p ∈ (s.delete_subject sub permanent).2.subjects, VersSorted p.2.versions) ∧
    (∀ (s : Store) (sub : Subject) (ver : SchemaVersion) (permanent inc_del : Bool),
       s.WF → ∀ p ∈ (s.delete_subject_version sub ver permanent inc_del).2.subjects,
         VersSorted p.2.versions) ∧
    (∀ (s : Store) (sub : Subject) (inc_del : Bool) (l : List SchemaVersion),
       Reachable s → s.get_versions sub inc_del = Except.ok l →
         l.Pairwise (· < ·)) := by
  refine ⟨fun s hr => hr.wf.2.2,
    fun s sub d ty hwf => (WF_insert hwf sub d ty).2.2,
    fun s sub d ty id ver del hwf => (WF_upsert hwf sub d ty id ver del).2.2,
    fun s sub perm hwf => (WF_delete_subject hwf sub perm).2.2,
    fun s sub ver perm incd hwf => (WF_delete_subject_version hwf sub ver perm incd).2.2,
    fun s sub incd l hr hok => ?_⟩
  have hwf := hr.wf
  cases hf : subjFind sub s.subjects with
  | none =>
      rw [get_versions_no_subject incd hf] at hok
      cases hok
  | some e =>
      cases hd : (e.deleted && !incd) with
      | true =>
          rw [get_versions_deleted_subject hf hd] at hok
          cases hok
      | false =>
          rw [get_versions_ok hf hd] at hok
          injection hok with hl
          have hvs : VersSorted e.versions := hwf.find_versSorted hf
          rw [← hl]
          have hfil : VersSorted
              (e.versions.filter (fun v => incd || !(v.deleted || e.deleted))) :=
            hvs.sublist (List.filter_sublist _)
          exact versSorted_iff_map.mp hfil

/-- Witness for C4 at the reachable store `exStore1`. -/
theorem C4_witness :
    Reachable exStore1 ∧ exStore1.WF ∧
    exStore1.get_versions "s1" false = Except.ok [1] ∧
    List.Pairwise (· < ·) ([1] : List SchemaVersion) := by
  have hre : Reachable exStore1 :=
    Reachable.insert "s1" "D1" SchemaType.avro Reachable.empty
  refine ⟨hre, by decide, by decide, ?_⟩
  exact C4_versions_sorted.2.2.2.2.2 exStore1 "s1" false [1] hre (by decide)

/-! ### C5 -/

/-- C5: `insert(sub, def, type)` followed immediately by
`get_subject_schema(sub, returned_version, include_deleted=no)` succeeds and
returns the same id, the same type and the same definition (and an
undeleted entry). -/
theorem C5_round_trip (s : Store) (sub : Subject) (d : SchemaDefinition)
    (ty : SchemaType) (hwf : s.WF) :
    (s.insert sub d ty).2.get_subject_schema sub (s.insert sub d ty).1.version false =
      Except.ok ⟨sub, (s.insert sub d ty).1.version, (s.insert sub d ty).1.id, ty, d, false⟩ := by
  have hwf1 : (s.insert_schema d ty).2.WF := WF_insert_schema hwf d ty
  have hA : schemasFind (s.insert_schema d ty).1.id (s.insert_schema d ty).2.schemas
      = some ⟨ty, d⟩ := by
    cases hfs : findSchema ty d s.schemas with
    | none =>
        rw [insert_schema_fresh hfs hwf.1]
        exact schemasFind_append_self _ (nextSchemaId_gt hwf.1)
    | some j =>
        rw [insert_schema_found hfs]
        exact schemasFind_of_mem hwf.1 (findSchema_some hfs)
  have hvs : VersSorted ((subjFind sub (s.insert_schema d ty).2.subjects).getD
      SubjectEntry.default).versions := hwf1.entry_versSorted sub
  cases hfind : ((subjFind sub (s.insert_schema d ty).2.subjects).getD
      SubjectEntry.default).versions.find?
      (fun u => u.id == (s.insert_schema d ty).1.id) with
  | some v =>
      have hvid : v.id = (s.insert_schema d ty).1.id := find?_id_some hfind
      have hins := insert_subject_found rfl hfind
      rw [insert_def, hins]
      have hv' := versionsFind_undeleteFirst hvs hfind
      have hsc : schemasFind v.id (s.insert_schema d ty).2.schemas = some ⟨ty, d⟩ := by
        rw [hvid]
        exact hA
      simp [Store.get_subject_schema, Store.get_schema, subjFind_store_self, hv', hsc, hvid]
      simp [hA]
  | none =>
      have hins := insert_subject_fresh rfl hfind
      rw [insert_def, hins]
      have hgt : ∀ u ∈ ((subjFind sub (s.insert_schema d ty).2.subjects).getD
          SubjectEntry.default).versions,
          u.version < (⟨nextVersion ((subjFind sub (s.insert_schema d ty).2.subjects).getD
            SubjectEntry.default).versions,
            (s.insert_schema d ty).1.id, false⟩ : SubjectVersionId).version :=
        fun u hu => nextVersion_gt hvs u hu
      have hv' := versionsFind_append_gt _ hgt
      simp [Store.get_subject_schema, Store.get_schema, subjFind_store_self, hv', hA]

/-- Witness for C5 at the empty store. -/
theorem C5_witness :
    Store.empty.WF ∧
    (Store.empty.insert "s1" "D1" SchemaType.avro).2.get_subject_schema "s1"
        (Store.empty.insert "s1" "D1" SchemaType.avro).1.version false =
      Except.ok ⟨"s1", (Store.empty.insert "s1" "D1" SchemaType.avro).1.version,
        (Store.empty.insert "s1" "D1" SchemaType.avro).1.id, SchemaType.avro, "D1", false⟩ :=
  ⟨by decide, C5_round_trip Store.empty "s1" "D1" SchemaType.avro WF_empty⟩

/-! ### C6 -/

theorem insertResult_ext {r : InsertResult} {a : SchemaVersion} {b : SchemaId}
    {c : Bool} (hv : r.version = a) (hi : r.id = b) (hb : r.inserted = c) :
    r = ⟨a, b, c⟩ := by
  rcases r with ⟨x, y, z⟩
  simp only at hv hi hb
  rw [hv, hi, hb]

/-- Inserting into a subject absent from the map appends version 1 and
reports `inserted = true`; the id is the one `insert_schema` allocated. -/
theorem insert_fresh_subject_result {s : Store} {sub : Subject}
    (d : SchemaDefinition) (ty : SchemaType)
    (h1 : subjFind sub s.subjects = Option.none) :
    (s.insert sub d ty).1.version = 1 ∧ (s.insert sub d ty).1.inserted = true ∧
    (s.insert sub d ty).1.id = (s.insert_schema d ty).1.id := by
  have he : (subjFind sub (s.insert_schema d ty).2.subjects).getD SubjectEntry.default
      = SubjectEntry.default := by
    rw [insert_schema_subjects, h1]
    rfl
  have hins := @insert_subject_fresh (s.insert_schema d ty).2 sub
      (s.insert_schema d ty).1.id SubjectEntry.default he rfl
  rw [insert_def, hins]
  exact ⟨rfl, rfl, rfl⟩

/-- `insert` on one subject does not affect lookups of another subject. -/
theorem insert_preserves_other_find {s : Store} {sub sub' : Subject}
    (d : SchemaDefinition) (ty : SchemaType) (hne : sub' ≠ sub) :
    subjFind sub' (s.insert sub d ty).2.subjects = subjFind sub' s.subjects := by
  rw [insert_def]
  show subjFind sub' (subjStore sub _ (s.insert_schema d ty).2.subjects)
      = subjFind sub' s.subjects
  rw [subjFind_store_ne sub sub' _ _ hne, insert_schema_subjects]

theorem insert_schemas_eq (s : Store) (sub : Subject) (d : SchemaDefinition)
    (ty : SchemaType) :
    (s.insert sub d ty).2.schemas = (s.insert_schema d ty).2.schemas := by
  rw [insert_def]
  rfl

/-- A second `insert_schema` of the same content, on the store produced by a
first `insert` of that content, allocates the same id. -/
theorem insert_insert_same_id (s : Store) (sub : Subject) (d : SchemaDefinition)
    (ty : SchemaType) (hwf : s.WF) :
    ((s.insert sub d ty).2.insert_schema d ty).1.id = (s.insert_schema d ty).1.id := by
  cases hfs : findSchema ty d s.schemas with
  | some j =>
      have hsch : (s.insert sub d ty).2.schemas = s.schemas := by
        rw [insert_schemas_eq, insert_schema_found hfs]
      have hfs2 : findSchema ty d (s.insert sub d ty).2.schemas = some j := by
        rw [hsch]
        exact hfs
      rw [insert_schema_found hfs2, insert_schema_found hfs]
  | none =>
      have hsch : (s.insert sub d ty).2.schemas
          = s.schemas ++ [(nextSchemaId s.schemas, ⟨ty, d⟩)] := by
        rw [insert_schemas_eq, insert_schema_fresh hfs hwf.1]
      have hfs2 : findSchema ty d (s.insert sub d ty).2.schemas
          = some (nextSchemaId s.schemas) := by
        rw [hsch]
        exact findSchema_append_self _ hfs
      rw [insert_schema_found hfs2, insert_schema_fresh hfs hwf.1]

/-- C6: inserting the same `(type, definition)` under two distinct, absent
subjects yields the same schema id in both results but independent version
sequences: each first insert returns version 1 with `inserted = true`; in
particular from the empty store both inserts return
`{version: 1, id: 1, inserted: true}`. -/
theorem C6_shared_id_independent_versions (s : Store) (sub1 sub2 : Subject)
    (d : SchemaDefinition) (ty : SchemaType) (hwf : s.WF) (h12 : sub1 ≠ sub2)
    (h1 : subjFind sub1 s.subjects = Option.none)
    (h2 : subjFind sub2 s.subjects = Option.none) :
    (s.insert sub1 d ty).1.version = 1 ∧
    (s.insert sub1 d ty).1.inserted = true ∧
    ((s.insert sub1 d ty).2.insert sub2 d ty).1.version = 1 ∧
    ((s.insert sub1 d ty).2.insert sub2 d ty).1.inserted = true ∧
    ((s.insert sub1 d ty).2.insert sub2 d ty).1.id = (s.insert sub1 d ty).1.id ∧
    (Store.empty.insert sub1 d ty).1 = ⟨1, 1, true⟩ ∧
    ((Store.empty.insert sub1 d ty).2.insert sub2 d ty).1 = ⟨1, 1, true⟩ := by
  have p1 := insert_fresh_subject_result d ty h1
  have h2' : subjFind sub2 (s.insert sub1 d ty).2.subjects = Option.none := by
    rw [insert_preserves_other_find d ty (Ne.symm h12)]
    exact h2
  have p2 := insert_fresh_subject_result d ty h2'
  have hid : ((s.insert sub1 d ty).2.insert sub2 d ty).1.id = (s.insert sub1 d ty).1.id := by
    rw [p2.2.2, insert_insert_same_id s sub1 d ty hwf, p1.2.2]
  -- the concrete (empty-store) scenario
  have q1 := @insert_fresh_subject_result Store.empty sub1 d ty rfl
  have hq1id : (Store.empty.insert_schema d ty).1.id = 1 := by
    rw [@insert_schema_fresh Store.empty d ty rfl WF_empty.1]
    rfl
  have hr1 : (Store.empty.insert sub1 d ty).1 = ⟨1, 1, true⟩ :=
    insertResult_ext q1.1 (by rw [q1.2.2, hq1id]) q1.2.1
  have h2e : subjFind sub2 (Store.empty.insert sub1 d ty).2.subjects = Option.none := by
    rw [insert_preserves_other_find d ty (Ne.symm h12)]
    rfl
  have q2 := insert_fresh_subject_result d ty h2e
  have hr2 : ((Store.empty.insert sub1 d ty).2.insert sub2 d ty).1 = ⟨1, 1, true⟩ := by
    refine insertResult_ext q2.1 ?_ q2.2.1
    rw [q2.2.2, insert_insert_same_id Store.empty sub1 d ty WF_empty, hq1id]
  exact ⟨p1.1, p1.2.1, p2.1, p2.2.1, hid, hr1, hr2⟩

/-- Witness for C6: the empty store with subjects `s1`, `s2` and
definition `D1`. -/
theorem C6_witness :
    (Store.empty.insert "s1" "D1" SchemaType.avro).1 = ⟨1, 1, true⟩ ∧
    ((Store.empty.insert "s1" "D1" SchemaType.avro).2.insert "s2" "D1"
        SchemaType.avro).1 = ⟨1, 1, true⟩ := by
  have h := C6_shared_id_independent_versions Store.empty "s1" "s2" "D1"
      SchemaType.avro WF_empty (by decide) (by decide) (by decide)
  exact ⟨h.2.2.2.2.2.1, h.2.2.2.2.2.2⟩

/-! ### C7 -/

theorem schemaEntry_of_fields {e : SchemaEntry} {ty : SchemaType}
    {d : SchemaDefinition} (h1 : ty = e.type) (h2 : d = e.definition) :
    e = ⟨ty, d⟩ := by
  rcases e with ⟨a, b⟩
  simp only at h1 h2
  rw [h1, h2]

/-- C7: `insert_schema` is content-addressed — byte-identical
`(type, definition)` content reuses an existing id and leaves the store
unchanged, while new content allocates `nextSchemaId` (the last key + 1, or
1 when no schemas are registered), which is strictly greater than every
existing id (monotonic allocation). -/
theorem C7_insert_schema_dedup (s : Store) (d : SchemaDefinition)
    (ty : SchemaType) (hwf : s.WF) :
    ((∃ p ∈ s.schemas, p.2 = (⟨ty, d⟩ : SchemaEntry)) →
       (s.insert_schema d ty).2 = s ∧
       ∃ p ∈ s.schemas, p.1 = (s.insert_schema d ty).1.id ∧
         p.2 = (⟨ty, d⟩ : SchemaEntry)) ∧
    ((∀ p ∈ s.schemas, p.2 ≠ (⟨ty, d⟩ : SchemaEntry)) →
       (s.insert_schema d ty).1.id = nextSchemaId s.schemas ∧
       (s.schemas = [] → (s.insert_schema d ty).1.id = 1) ∧
       (∀ p ∈ s.schemas, p.1 < (s.insert_schema d ty).1.id) ∧
       (s.insert_schema d ty).2.schemas
         = s.schemas ++ [((s.insert_schema d ty).1.id, ⟨ty, d⟩)]) := by
  constructor
  · rintro ⟨p, hp, hpe⟩
    cases hfs : findSchema ty d s.schemas with
    | none =>
        exact absurd ⟨by rw [hpe], by rw [hpe]⟩ (findSchema_eq_none.mp hfs p hp)
    | some j =>
        rw [insert_schema_found hfs]
        exact ⟨rfl, (j, ⟨ty, d⟩), findSchema_some hfs, rfl, rfl⟩
  · intro hno
    have hfs : findSchema ty d s.schemas = Option.none :=
      findSchema_eq_none.mpr fun p hp hc =>
        hno p hp (schemaEntry_of_fields hc.1 hc.2)
    rw [insert_schema_fresh hfs hwf.1]
    refine ⟨rfl, fun hnil => ?_, nextSchemaId_gt hwf.1, rfl⟩
    show nextSchemaId s.schemas = 1
    rw [hnil]
    rfl

/-- Witness for C7 on `exStore1`: re-registering `(avro, D1)` dedups to id 1
and leaves the store unchanged; new content `D2` allocates id 2 = max + 1. -/
theorem C7_witness :
    exStore1.WF ∧
    (exStore1.insert_schema "D1" SchemaType.avro).2 = exStore1 ∧
    (exStore1.insert_schema "D2" SchemaType.avro).1.id = nextSchemaId exStore1.schemas := by
  have h := C7_insert_schema_dedup exStore1 "D1" SchemaType.avro (by decide)
  have h2 := C7_insert_schema_dedup exStore1 "D2" SchemaType.avro (by decide)
  refine ⟨by decide, (h.1 ⟨(1, ⟨SchemaType.avro, "D1"⟩), by decide, rfl⟩).1, ?_⟩
  exact (h2.2 (by decide)).1

/-! ### C8 -/

/-- C8: `delete_subject(sub, permanent=no)` on a not-yet-deleted subject
flips its deleted flag to yes, returns the list of its version numbers and
keeps all version entries; `delete_subject(sub, permanent=yes)` succeeds
only on an already soft-deleted subject, erasing it entirely, and fails
with `subject_not_deleted` otherwise. -/
theorem C8_delete_subject (s : Store) (sub : Subject) (e : SubjectEntry)
    (hwf : s.WF) (hf : subjFind sub s.subjects = some e) :
    (e.deleted = false →
       (s.delete_subject sub false).1
           = Except.ok (e.versions.map SubjectVersionId.version) ∧
       subjFind sub (s.delete_subject sub false).2.subjects
           = some ⟨e.compatibility, e.versions, true⟩) ∧
    (e.deleted = false →
       s.delete_subject sub true = (Except.error ErrorCode.subject_not_deleted, s)) ∧
    (e.deleted = true →
       (s.delete_subject sub true).1
           = Except.ok (e.versions.map SubjectVersionId.version) ∧
       subjFind sub (s.delete_subject sub true).2.subjects = Option.none) := by
  refine ⟨fun hd => ?_, fun hd => delete_subject_not_deleted hf hd, fun hd => ?_⟩
  · rw [delete_subject_soft hf hd]
    exact ⟨rfl, subjFind_store_self _ _ _⟩
  · rw [delete_subject_permanent hf hd]
    exact ⟨rfl, subjFind_erase sub hwf.2.1⟩

/-- Witness for C8 on `exStore1` (live subject) and `exStoreDel`
(soft-deleted subject). -/
theorem C8_witness :
    exStore1.WF ∧
    (exStore1.delete_subject "s1" false).1 = Except.ok [1] ∧
    subjFind "s1" (exStore1.delete_subject "s1" false).2.subjects
        = some ⟨Option.none, [⟨1, 1, false⟩], true⟩ ∧
    exStore1.delete_subject "s1" true
        = (Except.error ErrorCode.subject_not_deleted, exStore1) ∧
    (exStoreDel.delete_subject "s1" true).1 = Except.ok [1] ∧
    subjFind "s1" (exStoreDel.delete_subject "s1" true).2.subjects = Option.none := by
  have h1 := C8_delete_subject exStore1 "s1" ⟨Option.none, [⟨1, 1, false⟩], false⟩
      (by decide) (by decide)
  have h2 := C8_delete_subject exStoreDel "s1" ⟨Option.none, [⟨1, 1, false⟩], true⟩
      (by decide) (by decide)
  exact ⟨by decide, (h1.1 rfl).1, (h1.1 rfl).2, h1.2.1 rfl, (h2.2.2 rfl).1, (h2.2.2 rfl).2⟩

/-! ### C9 -/

/-- C9 (error atomicity): whenever `delete_subject`,
`delete_subject_version`, per-subject `set_compatibility` or
`clear_compatibility` returns an error code, the store is left unchanged. -/
theorem C9_error_atomicity :
    (∀ (s : Store) (sub : Subject) (permanent : Bool) (ec : ErrorCode),
       (s.delete_subject sub permanent).1 = Except.error ec →
       (s.delete_subject sub permanent).2 = s) ∧
    (∀ (s : Store) (sub : Subject) (ver : SchemaVersion) (permanent inc_del : Bool)
       (ec : ErrorCode),
       (s.delete_subject_version sub ver permanent inc_del).1 = Except.error ec →
       (s.delete_subject_version sub ver permanent inc_del).2 = s) ∧
    (∀ (s : Store) (sub : Subject) (c : CompatibilityLevel) (ec : ErrorCode),
       (s.set_compatibility sub c).1 = Except.error ec →
       (s.set_compatibility sub c).2 = s) ∧
    (∀ (s : Store) (sub : Subject) (ec : ErrorCode),
       (s.clear_compatibility sub).1 = Except.error ec →
       (s.clear_compatibility sub).2 = s) := by
  refine ⟨fun s sub permanent ec h => ?_, fun s sub ver permanent inc_del ec h => ?_,
    fun s sub c ec h => ?_, fun s sub ec h => ?_⟩
  · cases hf : subjFind sub s.subjects with
    | none => simp [delete_subject_no_subject permanent hf]
    | some e =>
        cases hd : e.deleted with
        | false =>
            cases permanent with
            | true => simp [delete_subject_not_deleted hf hd]
            | false =>
                rw [delete_subject_soft hf hd] at h
                simp at h
        | true =>
            cases permanent with
            | true =>
                rw [delete_subject_permanent hf hd] at h
                simp at h
            | false => simp [delete_subject_already_soft hf hd]
  · cases hf : subjFind sub s.subjects with
    | none => simp [delete_subject_version_no_subject ver permanent inc_del hf]
    | some e =>
        cases hd : (e.deleted && !inc_del) with
        | true => simp [delete_subject_version_deleted_subject ver permanent hf hd]
        | false =>
            cases hv : versionsFind ver e.versions with
            | none => simp [delete_subject_version_no_version permanent hf hd hv]
            | some v =>
                cases h2 : (!v.deleted && permanent && !inc_del) with
                | true => simp [delete_subject_version_not_deleted_err hf hd hv h2]
                | false =>
                    cases h3 : (v.deleted && !permanent && !inc_del) with
                    | true => simp [delete_subject_version_soft_deleted_err hf hd hv h2 h3]
                    | false =>
                        cases permanent with
                        | true =>
                            rw [delete_subject_version_permanent hf hd hv h2] at h
                            simp at h
                        | false =>
                            rw [delete_subject_version_soft hf hd hv h3] at h
                            simp at h
  · cases hf : subjFind sub s.subjects with
    | none => simp [set_compatibility_no_subject c hf]
    | some e =>
        cases hd : e.deleted with
        | true => simp [set_compatibility_deleted c hf hd]
        | false =>
            rw [set_compatibility_ok c hf hd] at h
            simp at h
  · cases hf : subjFind sub s.subjects with
    | none => simp [clear_compatibility_no_subject hf]
    | some e =>
        rw [clear_compatibility_ok hf] at h
        simp at h

/-- Witness for C9: error calls on concrete stores leave them unchanged. -/
theorem C9_witness :
    (Store.empty.delete_subject "s1" false).1
        = Except.error ErrorCode.subject_not_found ∧
    (Store.empty.delete_subject "s1" false).2 = Store.empty ∧
    (exStore1.delete_subject_version "s1" 1 true false).2 = exStore1 ∧
    (exStoreDel.set_compatibility "s1" CompatibilityLevel.full).2 = exStoreDel ∧
    (Store.empty.clear_compatibility "s1").2 = Store.empty := by
  refine ⟨by decide,
    C9_error_atomicity.1 Store.empty "s1" false ErrorCode.subject_not_found (by decide),
    C9_error_atomicity.2.1 exStore1 "s1" 1 true false
      ErrorCode.subject_version_not_deleted (by decide),
    C9_error_atomicity.2.2.1 exStoreDel "s1" CompatibilityLevel.full
      ErrorCode.subject_not_found (by decide),
    C9_error_atomicity.2.2.2 Store.empty "s1" ErrorCode.subject_not_found (by decide)⟩

/-! ### C10 -/

theorem gss_ne_not_found {s : Store} {sub : Subject} {e : SubjectEntry}
    (hf : subjFind sub s.subjects = some e) (hd : e.deleted = false)
    (w : SchemaVersion) :
    s.get_subject_schema sub w false ≠ Except.error ErrorCode.subject_not_found := by
  have hd' : (e.deleted && !false) = false := by simp [hd]
  cases hv : versionsFind w e.versions with
  | none =>
      rw [get_subject_schema_no_version hf hd' hv]
      decide
  | some v =>
      cases hs : schemasFind v.id s.schemas with
      | none =>
          have hres : s.get_subject_schema sub w false
              = Except.error ErrorCode.schema_id_not_found := by
            simp [Store.get_subject_schema, hf, hd, hd', hv, Store.get_schema, hs]
          rw [hres]
          decide
      | some sc =>
          rw [get_subject_schema_ok hf hd' hv hs]
          simp

theorem get_versions_ok_of_live {s : Store} {sub : Subject} {e : SubjectEntry}
    (hf : subjFind sub s.subjects = some e) (hd : e.deleted = false) :
    ∃ l, s.get_versions sub false = Except.ok l :=
  ⟨_, get_versions_ok hf (by simp [hd])⟩

theorem mem_get_subjects {s : Store} {sub : Subject} {e : SubjectEntry}
    (hf : subjFind sub s.subjects = some e) (hd : e.deleted = false) :
    sub ∈ s.get_subjects false := by
  have hm : (sub, e) ∈ s.subjects := subjFind_mem hf
  have hfil : (sub, e) ∈ s.subjects.filter (fun p => false || !p.2.deleted) := by
    rw [List.mem_filter]
    exact ⟨hm, by simp [hd]⟩
  exact List.mem_map_of_mem Prod.fst hfil

/-- C10: writing into a soft-deleted subject — by `insert` or `upsert` —
resets the subject's deleted flag to no, so the subject reappears in
`get_subjects(include_deleted=no)`, `get_versions` succeeds again, and no
lookup fails with `subject_not_found` any more. -/
theorem C10_undelete_on_write (s : Store) (sub : Subject) (d : SchemaDefinition)
    (ty : SchemaType) (id : SchemaId) (ver : SchemaVersion) (del : Bool)
    (e : SubjectEntry) (hf : subjFind sub s.subjects = some e)
    (hd : e.deleted = true) :
    (∃ e1, subjFind sub (s.insert sub d ty).2.subjects = some e1 ∧
       e1.deleted = false) ∧
    sub ∈ (s.insert sub d ty).2.get_subjects false ∧
    (∃ l, (s.insert sub d ty).2.get_versions sub false = Except.ok l) ∧
    (∀ w, (s.insert sub d ty).2.get_subject_schema sub w false
        ≠ Except.error ErrorCode.subject_not_found) ∧
    (∃ e2, subjFind sub (s.upsert sub d ty id ver del).2.subjects = some e2 ∧
       e2.deleted = false) ∧
    sub ∈ (s.upsert sub d ty id ver del).2.get_subjects false ∧
    (∃ l, (s.upsert sub d ty id ver del).2.get_versions sub false = Except.ok l) ∧
    (∀ w, (s.upsert sub d ty id ver del).2.get_subject_schema sub w false
        ≠ Except.error ErrorCode.subject_not_found) := by
  have hfI : ∃ e1, subjFind sub (s.insert sub d ty).2.subjects = some e1 ∧
      e1.deleted = false := by
    cases hfind : ((subjFind sub (s.insert_schema d ty).2.subjects).getD
        SubjectEntry.default).versions.find?
        (fun u => u.id == (s.insert_schema d ty).1.id) with
    | some v =>
        have hins := insert_subject_found rfl hfind
        rw [insert_def, hins]
        exact ⟨_, subjFind_store_self _ _ _, rfl⟩
    | none =>
        have hins := insert_subject_fresh rfl hfind
        rw [insert_def, hins]
        exact ⟨_, subjFind_store_self _ _ _, rfl⟩
  obtain ⟨e1, hf1, hd1⟩ := hfI
  have hfU : ∃ e2, subjFind sub (s.upsert sub d ty id ver del).2.subjects = some e2 ∧
      e2.deleted = false := by
    rw [upsert_def, upsert_subject_def ver id del rfl]
    exact ⟨_, subjFind_store_self _ _ _, rfl⟩
  obtain ⟨e2, hf2, hd2⟩ := hfU
  exact ⟨⟨e1, hf1, hd1⟩, mem_get_subjects hf1 hd1, get_versions_ok_of_live hf1 hd1,
    fun w => gss_ne_not_found hf1 hd1 w, ⟨e2, hf2, hd2⟩, mem_get_subjects hf2 hd2,
    get_versions_ok_of_live hf2 hd2, fun w => gss_ne_not_found hf2 hd2 w⟩

/-- Witness for C10 on `exStoreDel`: the soft-deleted subject reappears
after an insert and after an upsert. -/
theorem C10_witness :
    subjFind "s1" exStoreDel.subjects = some ⟨Option.none, [⟨1, 1, false⟩], true⟩ ∧
    "s1" ∈ (exStoreDel.insert "s1" "D1" SchemaType.avro).2.get_subjects false ∧
    "s1" ∈ (exStoreDel.upsert "s1" "D1" SchemaType.avro 1 1 false).2.get_subjects false := by
  have h := C10_undelete_on_write exStoreDel "s1" "D1" SchemaType.avro 1 1 false
      ⟨Option.none, [⟨1, 1, false⟩], true⟩ (by decide) (by decide)
  exact ⟨by decide, h.2.1, h.2.2.2.2.2.1⟩

end SchemaRegistry
